import Mathlib

/-!
# Verification of the disk-backed B+ tree storage engine

Shallow embedding of `src/include/b_plus_tree.h` (template instantiated, as in the
repository's tests, with 4-byte integer keys and values; keys/values are modelled as
`Nat`, page numbers and the allocator cursor as `Nat` reduced mod `2^32` where the
source uses `uint32_t` arithmetic that can wrap).

Two levels are embedded:

* a byte-level codec (`encodeNode` / `decodeNode`) mirroring
  `SerializeLeaf`/`DeserializeLeaf`/`SerializeInternal`/`DeserializeInternal` and the
  `IsLeaf` tag dispatch, over pages as lists of byte values;
* a node-level tree engine (`insert` / `insertRec` / `splitLeafAt` / `splitInternalAt`)
  mirroring `BPlusTree::Insert`, `InsertRecursive`, `SplitLeaf`, `SplitInternal` and
  `AllocatePage`, over a page medium that stores decoded nodes.  Since
  `SerializeInternal` does not persist the `is_root_` flag, a node written to the
  medium is first normalised by `nodeToDisk` (the image of the codec round trip),
  keeping the node-level store in exact correspondence with the byte-level one.

The page medium (`OSInterface`, an external collaborator per the spec) is modelled by
its contract: a map from page numbers to contents together with a set of pages whose
writes fail; `WritePage` on a failing page leaves the medium unchanged and returns
`false`, exactly the boolean the C++ caller receives (and discards).
-/

namespace BPlusTree

/-- `2^32`, the modulus of the `uint32_t` arithmetic used for page numbers. -/
def u32 : Nat := 4294967296

/-- In-memory node values: `LeafNode` (`keys_`, `values_`, `next_leaf_page_`) and
`InternalNode` (`keys_`, `children_`, `is_root_`) from `b_plus_tree.h`. -/
inductive Node where
  | leaf (keys : List Nat) (values : List (List Nat)) (next : Nat)
  | internal (keys : List Nat) (children : List Nat) (isRoot : Bool)
deriving DecidableEq, Repr

/-- What actually reaches the disk when a node is serialised: `SerializeInternal`
never writes `is_root_`, and `DeserializeInternal` default-constructs it `false`,
so the persisted image of an internal node always carries `isRoot = false`. -/
def nodeToDisk : Node → Node
  | .leaf ks vs nx => .leaf ks vs nx
  | .internal ks cs _ => .internal ks cs false

/-- The page medium: contents per page number plus the set of pages whose writes
fail (the failure behaviour the `OSInterface` contract allows).  The store holds
whole decoded nodes; it agrees byte-for-byte with the 4096-byte on-disk page
exactly when the stored node's `serializedSize` is at most `pageSize` — the
source's serialisers have **no** bound check (see
`serialize_overflow_unchecked`), an oversized node overruns the page buffer and
only a truncated image is persisted — so every engine-level theorem below whose
conclusion depends on persisted contents carries side conditions keeping each
written node within this regime. -/
structure Medium where
  store : Nat → Option Node
  fails : Nat → Bool

/-- `BPlusTree::WritePage` / `OSInterface::WritePage`: returns `false` on failure,
in which case the page is not durably updated.  The stored value is the serialised
image (`nodeToDisk`).  The whole node is recorded regardless of its size: this is
faithful to the fixed 4096-byte page only for nodes with
`serializedSize n ≤ pageSize`, since `SerializeLeaf`/`SerializeInternal` never
check the bound and truncate past it — theorems about whole runs therefore bound
`order` (and key multiplicity) so that every node they write fits its page. -/
def writePage (m : Medium) (p : Nat) (n : Node) : Medium × Bool :=
  if m.fails p then (m, false)
  else ({ m with store := fun q => if q = p then some (nodeToDisk n) else m.store q }, true)

/-- `BPlusTree::AllocatePage`: `return next_page_++;` on a `uint32_t` cursor. -/
def allocatePage (np : Nat) : Nat × Nat := (np, (np + 1) % u32)

/-- Index computed by `std::lower_bound(keys.begin(), keys.end(), key)` on a sorted
vector: the number of leading elements strictly below `key`. -/
def lowerIdx (ks : List Nat) (k : Nat) : Nat := (ks.takeWhile (fun x => decide (x < k))).length

/-- Index computed by `std::upper_bound(keys.begin(), keys.end(), key)` on a sorted
vector: the number of leading elements `≤ key`. -/
def upperIdx (ks : List Nat) (k : Nat) : Nat := (ks.takeWhile (fun x => decide (x ≤ k))).length

/-- The leaf-mutation step of `InsertRecursive` (lines 159–167): if `key` is present
at index `idx`, append `value` to `values_[idx]`; otherwise insert `key` and a
singleton value vector at the sorted position. -/
def leafInsert (ks : List Nat) (vs : List (List Nat)) (key value : Nat) :
    List Nat × List (List Nat) :=
  let idx := lowerIdx ks key
  match ks.get? idx with
  | some k0 =>
      if k0 = key then (ks, vs.set idx (vs.getD idx [] ++ [value]))
      else (ks.insertIdx idx key, vs.insertIdx idx [value])
  | none => (ks.insertIdx idx key, vs.insertIdx idx [value])

/-- `BPlusTree::SplitLeaf`: halve an overflowing leaf at `mid = size/2`, link the
new right leaf into the chain, persist both halves, and promote
`(right.keys_.front(), right page)`. -/
def splitLeafAt (s : Medium × Nat) (page : Nat) (ks : List Nat) (vs : List (List Nat))
    (nx : Nat) : (Medium × Nat) × Option (Nat × Nat) :=
  let mid := ks.length / 2
  let (newPage, np2) := allocatePage s.2
  let rightNode : Node := .leaf (ks.drop mid) (vs.drop mid) nx
  let leftNode : Node := .leaf (ks.take mid) (vs.take mid) newPage
  let (m1, _) := writePage s.1 page leftNode
  let (m2, _) := writePage m1 newPage rightNode
  ((m2, np2), some ((ks.drop mid).headD 0, newPage))

/-- `BPlusTree::SplitInternal`: remove the middle key, give `keys_[mid+1:]` and
`children_[mid+1:]` to the new right node, persist both, promote `(mid key, right page)`. -/
def splitInternalAt (s : Medium × Nat) (page : Nat) (ks cs : List Nat) (b : Bool) :
    (Medium × Nat) × Option (Nat × Nat) :=
  let mid := ks.length / 2
  let midKey := ks.getD mid 0
  let (newPage, np2) := allocatePage s.2
  let rightNode : Node := .internal (ks.drop (mid + 1)) (cs.drop (mid + 1)) false
  let leftNode : Node := .internal (ks.take mid) (cs.take (mid + 1)) b
  let (m1, _) := writePage s.1 page leftNode
  let (m2, _) := writePage m1 newPage rightNode
  ((m2, np2), some (midKey, newPage))

/-- `BPlusTree::InsertRecursive`.  The medium and allocator cursor are threaded as
state; the returned `Option (Nat × Nat)` is the `promoted` out-parameter.  `fuel`
bounds the recursion depth (the C++ recursion terminates because well-formed trees
are finite); on exhausted fuel or an unreadable page the call is a no-op, which is
unreachable for well-formed inputs with `fuel` above the tree height. -/
def insertRec (order : Nat) : Nat → Medium × Nat → Nat → Nat → Nat →
    (Medium × Nat) × Option (Nat × Nat)
  | 0, s, _, _, _ => (s, none)
  | fuel + 1, s, pageNum, key, value =>
    match s.1.store pageNum with
    | none => (s, none)
    | some (.leaf ks vs nx) =>
        let kv := leafInsert ks vs key value
        if order - 1 < kv.1.length then
          splitLeafAt s pageNum kv.1 kv.2 nx
        else
          let (m2, _) := writePage s.1 pageNum (.leaf kv.1 kv.2 nx)
          ((m2, s.2), none)
    | some (.internal ks cs b) =>
        let childPage := cs.getD (upperIdx ks key) 0
        let r := insertRec order fuel s childPage key value
        match r.2 with
        | none => (r.1, none)
        | some (kp, newPage) =>
            let pos := upperIdx ks kp
            let ks2 := ks.insertIdx pos kp
            let cs2 := cs.insertIdx (pos + 1) newPage
            if order < cs2.length then
              splitInternalAt r.1 pageNum ks2 cs2 b
            else
              let (m2, _) := writePage r.1.1 pageNum (.internal ks2 cs2 b)
              ((m2, r.1.2), none)

/-- The process-resident tree state: `root_page_`, `next_page_`, `order_`, and the
medium behind `os_`. -/
structure TreeState where
  medium : Medium
  rootPage : Nat
  nextPage : Nat
  order : Nat

/-- `BPlusTree::Insert`.  Returns the new state together with the boolean the C++
function returns (which is `true` on every path: the results of `WritePage` and
`ReadPage` are discarded by the source). -/
def insert (fuel : Nat) (s : TreeState) (key value : Nat) : TreeState × Bool :=
  if s.rootPage = 0 then
    let root : Node := .leaf [key] [[value]] 0
    let (p, np2) := allocatePage s.nextPage
    let (m2, _) := writePage s.medium p root
    ({ s with medium := m2, rootPage := p, nextPage := np2 }, true)
  else
    let r := insertRec s.order fuel (s.medium, s.nextPage) s.rootPage key value
    match r.2 with
    | none => ({ s with medium := r.1.1, nextPage := r.1.2 }, true)
    | some (kp, promotedPage) =>
        let newRoot : Node := .internal [kp] [s.rootPage, promotedPage] true
        let (rp, np2) := allocatePage r.1.2
        let (m2, _) := writePage r.1.1 rp newRoot
        ({ s with medium := m2, rootPage := rp, nextPage := np2 }, true)

/-- A fresh tree over an empty, failure-free file: the constructor sets
`root_page_ = INVALID_PAGE = 0` and `next_page_ = 1`. -/
def emptyState (order : Nat) : TreeState :=
  ⟨⟨fun _ => none, fun _ => false⟩, 0, 1, order⟩

/-- Folding a sequence of `Insert` calls. -/
def insertList (fuel : Nat) (s : TreeState) (ps : List (Nat × Nat)) : TreeState :=
  ps.foldl (fun t kv => (insert fuel t kv.1 kv.2).1) s

/-- Allocator cursor after `n` calls of `AllocatePage` on one tree instance
(`next_page_` starts at `1`); the page issued by the `n`-th call (0-indexed) is
`allocCursor n` itself. -/
def allocCursor : Nat → Nat
  | 0 => 1
  | n + 1 => (allocatePage (allocCursor n)).2

/-- The root-to-leaf pages `InsertRecursive` descends through for `key`, read off
the pre-state medium (all page reads happen on the way down, before any write). -/
def descentPath : Nat → (Nat → Option Node) → Nat → Nat → List Nat
  | 0, _, page, _ => [page]
  | fuel + 1, st, page, key =>
    match st page with
    | some (.internal ks cs _) =>
        page :: descentPath fuel st (cs.getD (upperIdx ks key) 0) key
    | _ => [page]

/-! ## Byte-level codec

Pages are lists of byte values (`Nat`s below 256); multi-byte integers are
little-endian 4-byte `uint32_t`s, exactly as produced by `memcpy` of the
instantiated `int` keys/values on a little-endian machine. -/

/-- The four little-endian bytes of a `uint32_t` value. -/
def writeLE32 (n : Nat) : List Nat :=
  [n % 256, n / 256 % 256, n / 65536 % 256, n / 16777216 % 256]

/-- Read a little-endian `uint32_t` from the head of a byte list. -/
def readLE32 (bs : List Nat) : Nat :=
  bs.getD 0 0 + 256 * bs.getD 1 0 + 65536 * bs.getD 2 0 + 16777216 * bs.getD 3 0

/-- The per-key records of `SerializeLeaf`: key bytes, value count, value bytes. -/
def encodeEntries : List (Nat × List Nat) → List Nat
  | [] => []
  | (k, vsk) :: rest =>
      writeLE32 k ++ writeLE32 vsk.length ++ vsk.flatMap writeLE32 ++ encodeEntries rest

/-- `BPlusTree::SerializeLeaf` / `SerializeInternal`: the exact byte prefix the
`memcpy` sequence lays down in the 4096-byte page buffer (tag byte, then the
fixed-offset fields, then the variable part).  There is no bound check: the
returned list is as long as the node demands, even past `PAGE_SIZE`. -/
def encodeNode : Node → List Nat
  | .leaf ks vs nx =>
      1 :: (writeLE32 nx ++ writeLE32 ks.length ++ encodeEntries (ks.zip vs))
  | .internal ks cs _ =>
      2 :: (writeLE32 ks.length ++ ks.flatMap writeLE32 ++ cs.flatMap writeLE32)

/-- `PAGE_SIZE` from `b_plus_tree.h`. -/
def pageSize : Nat := 4096

/-- The serialised size of a node, i.e. the final `offset` the serialisers reach. -/
def serializedSize (n : Node) : Nat := (encodeNode n).length

/-- Read `count` consecutive `uint32_t` values, returning them and the rest. -/
def readVals : Nat → List Nat → List Nat × List Nat
  | 0, bs => ([], bs)
  | n + 1, bs =>
      let v := readLE32 bs
      let r := readVals n (bs.drop 4)
      (v :: r.1, r.2)

/-- The entry-reading loop of `DeserializeLeaf`. -/
def readEntries : Nat → List Nat → List (Nat × List Nat)
  | 0, _ => []
  | n + 1, bs =>
      let k := readLE32 bs
      let vc := readLE32 (bs.drop 4)
      let r := readVals vc (bs.drop 8)
      (k, r.1) :: readEntries n r.2

/-- Read `count` consecutive `uint32_t` keys (loop of `DeserializeInternal`). -/
def readKeys : Nat → List Nat → List Nat
  | 0, _ => []
  | n + 1, bs => readLE32 bs :: readKeys n (bs.drop 4)

/-- `BPlusTree::DeserializeLeaf`: `next_leaf` at offset 1, count at offset 5,
entries from offset 9. -/
def decodeLeaf (page : List Nat) : Node :=
  let nx := readLE32 (page.drop 1)
  let count := readLE32 (page.drop 5)
  let es := readEntries count (page.drop 9)
  .leaf (es.map Prod.fst) (es.map Prod.snd) nx

/-- `BPlusTree::DeserializeInternal`: count at offset 1, `count` keys from offset 5,
`count + 1` children after them; `is_root_` is not on disk, so the default-constructed
`false` survives. -/
def decodeInternal (page : List Nat) : Node :=
  let count := readLE32 (page.drop 1)
  let ks := readKeys count (page.drop 5)
  let cs := readKeys (count + 1) (page.drop (5 + 4 * count))
  .internal ks cs false

/-- `BPlusTree::IsLeaf`: the tag byte compared against `NodeType::Leaf = 1` only. -/
def isLeafPage (page : List Nat) : Bool := page.headD 0 == 1

/-- The decode dispatch of `InsertRecursive` (lines 155/175): a page whose tag is
`1` is deserialised as a leaf and every other page — whatever its tag byte — is
handed to `DeserializeInternal`; no tag is ever rejected. -/
def decodeNode (page : List Nat) : Node :=
  if isLeafPage page then decodeLeaf page else decodeInternal page

/-! ## Codec round-trip lemmas -/

theorem readLE32_write (n : Nat) (rest : List Nat) (h : n < u32) :
    readLE32 (writeLE32 n ++ rest) = n := by
  simp only [writeLE32, readLE32, List.cons_append, List.nil_append, List.getD_cons_zero,
    List.getD_cons_succ]
  have : n < 4294967296 := h
  omega

theorem drop_four_write (n : Nat) (rest : List Nat) :
    (writeLE32 n ++ rest).drop 4 = rest := by
  simp [writeLE32]

theorem flatMap_write_length (vs : List Nat) : (vs.flatMap writeLE32).length = 4 * vs.length := by
  induction vs with
  | nil => simp
  | cons v vs ih => simp [List.flatMap_cons, writeLE32, ih]; omega

theorem readVals_flatMap (vs : List Nat) (rest : List Nat) (h : ∀ v ∈ vs, v < u32) :
    readVals vs.length (vs.flatMap writeLE32 ++ rest) = (vs, rest) := by
  induction vs with
  | nil => simp [readVals]
  | cons v vs ih =>
      have hv : v < u32 := h v (by simp)
      simp only [List.length_cons, List.flatMap_cons, List.append_assoc, readVals]
      rw [readLE32_write _ _ hv, drop_four_write,
        ih (fun x hx => h x (by simp [hx]))]

theorem drop_eight_write (a b : Nat) (l : List Nat) :
    ((writeLE32 a ++ (writeLE32 b ++ l))).drop 8 = l := rfl

theorem drop_five_tag (t n : Nat) (l : List Nat) :
    ((t :: (writeLE32 n ++ l))).drop 5 = l := rfl

theorem drop_nine_tag (t a b : Nat) (l : List Nat) :
    ((t :: (writeLE32 a ++ (writeLE32 b ++ l)))).drop 9 = l := rfl

theorem readEntries_encode (es : List (Nat × List Nat)) (rest : List Nat)
    (h : ∀ e ∈ es, e.1 < u32 ∧ e.2.length < u32 ∧ ∀ v ∈ e.2, v < u32) :
    readEntries es.length (encodeEntries es ++ rest) = es := by
  induction es with
  | nil => simp [readEntries]
  | cons e es ih =>
      obtain ⟨hk, hl, hv⟩ := h e (by simp)
      obtain ⟨k, vsk⟩ := e
      simp only at hk hl hv
      simp only [List.length_cons, encodeEntries, List.append_assoc, readEntries]
      rw [readLE32_write _ _ hk, drop_four_write, readLE32_write _ _ hl, drop_eight_write,
        readVals_flatMap _ _ hv, ih (fun x hx => h x (by simp [hx]))]

theorem readKeys_flatMap (ks : List Nat) (rest : List Nat) (h : ∀ k ∈ ks, k < u32) :
    readKeys ks.length (ks.flatMap writeLE32 ++ rest) = ks := by
  induction ks with
  | nil => simp [readKeys]
  | cons k ks ih =>
      simp only [List.length_cons, List.flatMap_cons, List.append_assoc, readKeys]
      rw [readLE32_write _ _ (h k (by simp)), drop_four_write,
        ih (fun x hx => h x (by simp [hx]))]

/-- Decoding the encoding of a leaf node recovers it exactly, provided the node is
in-invariant for the instantiated 4-byte key/value type (`len(keys) == len(values)`,
all stored integers below `2^32`).  The trailing `rest` stands for whatever padding
fills the remainder of the 4096-byte page buffer. -/
theorem decodeLeaf_encode (ks : List Nat) (vs : List (List Nat)) (nx : Nat)
    (rest : List Nat) (hlen : ks.length = vs.length)
    (hks : ∀ k ∈ ks, k < u32) (hnx : nx < u32) (hcount : ks.length < u32)
    (hvs : ∀ l ∈ vs, l.length < u32 ∧ ∀ v ∈ l, v < u32) :
    decodeLeaf (encodeNode (.leaf ks vs nx) ++ rest) = .leaf ks vs nx := by
  have hzlen : (ks.zip vs).length = ks.length := by
    simp [List.length_zip, hlen]
  simp only [encodeNode, decodeLeaf, List.cons_append, List.drop_succ_cons, List.drop_zero,
    List.append_assoc]
  rw [readLE32_write _ _ hnx, drop_four_write, readLE32_write _ _ hcount, drop_eight_write, ← hzlen,
    readEntries_encode _ _ (by
      intro e he
      have he1 := List.of_mem_zip he
      exact ⟨hks e.1 he1.1, (hvs e.2 he1.2).1, (hvs e.2 he1.2).2⟩)]
  rw [List.map_fst_zip ks vs (by omega), List.map_snd_zip ks vs (by omega)]

/-- Decoding the encoding of an internal node recovers the keys and children exactly,
but the `is_root_` flag always decodes to `false` because `SerializeInternal` never
writes it. -/
theorem decodeInternal_encode (ks cs : List Nat) (b : Bool) (rest : List Nat)
    (hcs : cs.length = ks.length + 1)
    (hks : ∀ k ∈ ks, k < u32) (hcsb : ∀ c ∈ cs, c < u32) (hcount : ks.length < u32) :
    decodeInternal (encodeNode (.internal ks cs b) ++ rest) = .internal ks cs false := by
  simp only [encodeNode, decodeInternal, List.cons_append, List.drop_succ_cons, List.drop_zero,
    List.append_assoc]
  rw [readLE32_write _ _ hcount, ← List.drop_drop, drop_five_tag, drop_four_write,
    readKeys_flatMap _ _ hks]
  have hdrop : ((ks.flatMap writeLE32 ++ (cs.flatMap writeLE32 ++ rest)).drop (4 * ks.length))
      = cs.flatMap writeLE32 ++ rest := by
    rw [← flatMap_write_length ks, List.drop_left]
  rw [hdrop, ← hcs, readKeys_flatMap _ _ hcsb]

/-- Tag dispatch: an encoded leaf decodes through the leaf branch. -/
theorem decodeNode_encode_leaf (ks : List Nat) (vs : List (List Nat)) (nx : Nat)
    (rest : List Nat) (hlen : ks.length = vs.length)
    (hks : ∀ k ∈ ks, k < u32) (hnx : nx < u32) (hcount : ks.length < u32)
    (hvs : ∀ l ∈ vs, l.length < u32 ∧ ∀ v ∈ l, v < u32) :
    decodeNode (encodeNode (.leaf ks vs nx) ++ rest) = .leaf ks vs nx := by
  rw [decodeNode, if_pos (by simp [isLeafPage, encodeNode])]
  exact decodeLeaf_encode ks vs nx rest hlen hks hnx hcount hvs

/-- Tag dispatch: an encoded internal node decodes through the internal branch,
losing `is_root_`. -/
theorem decodeNode_encode_internal (ks cs : List Nat) (b : Bool) (rest : List Nat)
    (hcs : cs.length = ks.length + 1)
    (hks : ∀ k ∈ ks, k < u32) (hcsb : ∀ c ∈ cs, c < u32) (hcount : ks.length < u32) :
    decodeNode (encodeNode (.internal ks cs b) ++ rest) = .internal ks cs false := by
  rw [decodeNode, if_neg (by simp [isLeafPage, encodeNode])]
  exact decodeInternal_encode ks cs b rest hcs hks hcsb hcount

/-! ## Claim C3 — codec round trip -/

/-- The in-invariant conditions on a node of the instantiated tree (4-byte integer
keys/values, `len(keys) == len(values)`, sorted keys, `len(children) == len(keys)+1`),
under which its serialised form is meaningful. -/
def nodeInv : Node → Prop
  | .leaf ks vs nx =>
      List.Chain' (· < ·) ks ∧ ks.length = vs.length ∧ nx < u32 ∧ ks.length < u32 ∧
        (∀ k ∈ ks, k < u32) ∧ ∀ l ∈ vs, l ≠ [] ∧ l.length < u32 ∧ ∀ v ∈ l, v < u32
  | .internal ks cs _ =>
      List.Chain' (· < ·) ks ∧ cs.length = ks.length + 1 ∧ ks.length < u32 ∧
        (∀ k ∈ ks, k < u32) ∧ ∀ c ∈ cs, c < u32

/-- The full 4096-byte page image the serialisers produce: the written prefix,
then the zero bytes the freshly value-initialised `std::vector<std::byte>` buffer
retains. -/
def pagePad (bytes : List Nat) : List Nat :=
  bytes ++ List.replicate (pageSize - bytes.length) 0

/-- C3, counterexample: an in-invariant, page-fitting Internal node with
`is_root_ = true` does **not** round-trip in all fields — `SerializeInternal`
(lines 322–341) never writes `is_root_` and `DeserializeInternal` (lines 343–361)
leaves it default-constructed `false`, so `decode(encode(n)) ≠ n`. -/
theorem codec_roundtrip_cex :
    decodeNode (pagePad (encodeNode (Node.internal [5] [1, 2] true)))
        = Node.internal [5] [1, 2] false ∧
      Node.internal [5] [1, 2] false ≠ Node.internal [5] [1, 2] true ∧
      nodeInv (Node.internal [5] [1, 2] true) ∧
      serializedSize (Node.internal [5] [1, 2] true) ≤ pageSize := by
  refine ⟨by decide, by decide, ?_, by decide⟩
  simp [nodeInv, u32]

/-- C3, amended: for every in-invariant node whose serialised form fits within one
4096-byte page, decoding the encoded page recovers the node **except for the
`is_root_` flag of an Internal node, which always decodes to `false`** — i.e.
`decode(encode(n)) = nodeToDisk n`, so the round trip is the identity exactly on
leaves and on internal nodes with `is_root_ = false`. -/
theorem codec_roundtrip (n : Node) (hinv : nodeInv n)
    (hfit : serializedSize n ≤ pageSize) :
    decodeNode (pagePad (encodeNode n)) = nodeToDisk n := by
  cases n with
  | leaf ks vs nx =>
      obtain ⟨-, hlen, hnx, hcount, hks, hvs⟩ := hinv
      exact decodeNode_encode_leaf ks vs nx _ hlen hks hnx hcount
        (fun l hl => ⟨(hvs l hl).2.1, (hvs l hl).2.2⟩)
  | internal ks cs b =>
      obtain ⟨-, hcs, hcount, hks, hcsb⟩ := hinv
      exact decodeNode_encode_internal ks cs b _ hcs hks hcsb hcount

/-- Witness for `codec_roundtrip` at a concrete leaf node. -/
theorem codec_roundtrip_witness :
    nodeInv (Node.leaf [3, 9] [[4], [6, 8]] 2) ∧
      serializedSize (Node.leaf [3, 9] [[4], [6, 8]] 2) ≤ pageSize ∧
      decodeNode (pagePad (encodeNode (Node.leaf [3, 9] [[4], [6, 8]] 2)))
        = nodeToDisk (Node.leaf [3, 9] [[4], [6, 8]] 2) := by
  have h1 : nodeInv (Node.leaf [3, 9] [[4], [6, 8]] 2) := by
    simp [nodeInv, u32]
  exact ⟨h1, by decide, codec_roundtrip _ h1 (by decide)⟩

/-! ## Claim C7 — encode has no page-capacity check -/

/-- An in-invariant leaf node whose serialised form needs 4113 bytes: one key whose
value vector holds 1024 4-byte values. -/
def overflowingLeaf : Node := .leaf [5] [List.replicate 1024 7] 0

/-- C7: `SerializeLeaf` performs no bound check whatsoever — on `overflowingLeaf`
it lays down 4113 > 4096 bytes of writes (the final `offset` walks past the page),
and the function has no failure path at all (`encodeNode` is total).  The claimed
explicit failure does not exist in the source. -/
theorem serialize_overflow_unchecked :
    pageSize < serializedSize overflowingLeaf ∧ serializedSize overflowingLeaf = 4113 := by
  have hw : ∀ n : Nat, (writeLE32 n).length = 4 := fun _ => rfl
  have h : serializedSize overflowingLeaf = 4113 := by
    simp only [serializedSize, overflowingLeaf, encodeNode, List.zip_cons_cons,
      List.zip_nil_right, encodeEntries, List.length_cons, List.length_append, hw,
      flatMap_write_length, List.length_replicate, List.length_nil]
  exact ⟨by rw [h]; decide, h⟩

/-! ## Claim C8 — no tag validation on decode -/

/-- A page whose tag byte is `3` — outside `{1, 2}` — followed by bytes that
`DeserializeInternal` will happily misinterpret (count 1, key 7, children 11, 22). -/
def badTagPage : List Nat :=
  3 :: (writeLE32 1 ++ (writeLE32 7 ++ (writeLE32 11 ++ writeLE32 22)))

/-- C8: the engine never rejects a tag byte outside `{1,2}`.  `IsLeaf` (lines
256–260) only compares the tag against `1`, and `InsertRecursive` sends every
non-`1` page — including tag `3` — straight to `DeserializeInternal`, which
interprets the remaining bytes as keys and children. -/
theorem decode_accepts_bad_tag :
    badTagPage.headD 0 = 3 ∧ isLeafPage badTagPage = false ∧
      decodeNode badTagPage = Node.internal [7] [11, 22] false := by
  decide

/-! ## Claim C6 — page allocation -/

theorem allocCursor_closed (n : Nat) : allocCursor n = (1 + n) % u32 := by
  induction n with
  | zero =>
      simp [allocCursor, Nat.mod_eq_of_lt, u32]
  | succ n ih =>
      simp only [allocCursor, allocatePage, ih, Nat.mod_add_mod]
      rfl

/-- C6, counterexample: `next_page_` is a `uint32_t`, so the 2^32-th call of
`AllocatePage` on one instance wraps the cursor and issues page number 0 — the
reserved "none" page — smaller than the very first issued page 1.  The claimed
unbounded strict monotonicity (and "0 is never issued") is false. -/
theorem allocator_wraps_cex : allocCursor (u32 - 1) = 0 ∧ allocCursor 0 = 1 := by
  constructor
  · rw [allocCursor_closed]
    have : 1 + (u32 - 1) = u32 := by
      have : 0 < u32 := by decide
      omega
    rw [this, Nat.mod_self]
  · rfl

/-- C6, amended: page numbers are issued strictly monotonically increasing starting
at 1 — the `i`-th call (0-indexed) issues page `i + 1`, so no number repeats and 0
is never issued — **for the first `2^32 − 1` allocations**; the 32-bit cursor wraps
at the 2^32-th call. -/
theorem allocator_monotone (i : Nat) (h : i < u32 - 1) : allocCursor i = i + 1 := by
  rw [allocCursor_closed, Nat.add_comm, Nat.mod_eq_of_lt]
  have : (0:Nat) < u32 := by decide
  omega

/-- Witness for `allocator_monotone`. -/
theorem allocator_monotone_witness : 5 < u32 - 1 ∧ allocCursor 5 = 5 + 1 :=
  ⟨by decide, allocator_monotone 5 (by decide)⟩

/-! ## Claim C9 — I/O failure is not propagated -/

/-- An empty tree over a medium whose write of page 1 fails. -/
def failWriteState : TreeState := ⟨⟨fun _ => none, fun p => p == 1⟩, 0, 1, 3⟩

/-- C9: `Insert` discards every `ReadPage`/`WritePage` boolean and returns `true`
unconditionally (lines 114–147 end in `return true` on all paths).  Inserting into
an empty tree whose root-page write fails still reports success, with nothing
persisted. -/
theorem insert_ignores_write_failure :
    (insert 1 failWriteState 5 7).2 = true ∧
      (writePage failWriteState.medium 1 (.leaf [5] [[7]] 0)).2 = false ∧
      (insert 1 failWriteState 5 7).1.medium.store 1 = none := by
  refine ⟨rfl, rfl, rfl⟩

/-- C9 holds in full generality: `insert` returns `true` for **every** state,
key, value and fuel, regardless of any medium failure. -/
theorem insert_always_true (fuel : Nat) (s : TreeState) (key value : Nat) :
    (insert fuel s key value).2 = true := by
  unfold insert
  split
  · rfl
  · dsimp only
    split <;> rfl

/-! ## Claim C5 — duplicate-key accumulation -/

/-- The state after the first `Insert` into an empty tree: a single leaf at the
freshly allocated page 1 (branch at lines 116–127). -/
theorem insert_into_empty (order fuel k v : Nat) :
    (insert fuel (emptyState order) k v).1 =
      ⟨⟨fun q => if q = 1 then some (.leaf [k] [[v]] 0) else none, fun _ => false⟩,
        1, 2, order⟩ := rfl

/-- Appending a second value under the same key: the leaf search finds the key and
appends to `values_[idx]` (line 163). -/
theorem leafInsert_found (k v1 v2 : Nat) :
    leafInsert [k] [[v1]] k v2 = ([k], [[v1, v2]]) := by
  simp [leafInsert, lowerIdx]

/-- The shape every state in a no-split run has: the whole tree is one leaf at
page 1, `root_page_ = 1`, `next_page_ = 2`, over a failure-free medium. -/
def SingleLeafState (s : TreeState) (order : Nat) (K : List Nat) (V : List (List Nat)) :
    Prop :=
  s.order = order ∧ s.rootPage = 1 ∧ s.nextPage = 2 ∧ (∀ q, s.medium.fails q = false) ∧
    s.medium.store 1 = some (.leaf K V 0) ∧ ∀ p, p ≠ 1 → s.medium.store p = none

theorem singleLeaf_after_first_insert (order fuel k v : Nat) :
    SingleLeafState (insert fuel (emptyState order) k v).1 order [k] [[v]] := by
  rw [insert_into_empty]
  exact ⟨rfl, rfl, rfl, fun q => rfl, rfl, fun p hp => by simp [hp]⟩

/-- One `Insert` on a single-leaf tree that does not overflow the leaf: the new
state is the same single-leaf tree with `leafInsert` applied (lines 149–174, no
split branch). -/
theorem insert_step_single_leaf (order f k v : Nat) (K : List Nat) (V : List (List Nat))
    (s : TreeState) (hs : SingleLeafState s order K V)
    (hns : ¬(order - 1 < (leafInsert K V k v).1.length)) :
    SingleLeafState (insert (f + 1) s k v).1 order
      (leafInsert K V k v).1 (leafInsert K V k v).2 := by
  obtain ⟨hord, hroot, hnext, hfails, hstore, hrest⟩ := hs
  unfold insert
  rw [hroot]
  simp only [Nat.one_ne_zero, if_false, insertRec, hstore, hfails, writePage,
    Bool.false_eq_true, hord, if_neg hns]
  refine ⟨rfl, rfl, hnext, fun q => hfails q, by simp [nodeToDisk], fun p hp => ?_⟩
  simp [hp, hrest p hp]

/-- C5: inserting `(k, v1)` then `(k, v2)` into an empty tree yields exactly one
leaf entry for `k` whose value sequence is `[v1, v2]` in insertion order — one key
entry, no overwrite — and no other page is touched. -/
theorem duplicate_key_accumulates (order fuel k v1 v2 : Nat) (h3 : 3 ≤ order)
    (hv : v1 ≠ v2) (hf : 1 ≤ fuel) :
    (insert fuel (insert fuel (emptyState order) k v1).1 k v2).1.rootPage = 1 ∧
      (insert fuel (insert fuel (emptyState order) k v1).1 k v2).1.medium.store 1
        = some (.leaf [k] [[v1, v2]] 0) ∧
      ∀ p, p ≠ 1 →
        (insert fuel (insert fuel (emptyState order) k v1).1 k v2).1.medium.store p = none := by
  obtain ⟨f, rfl⟩ : ∃ f, fuel = f + 1 := ⟨fuel - 1, by omega⟩
  have h1 := singleLeaf_after_first_insert order (f + 1) k v1
  have h2 := insert_step_single_leaf order f k v2 [k] [[v1]]
    (insert (f + 1) (emptyState order) k v1).1 h1
    (by rw [leafInsert_found]; simpa using by omega)
  rw [leafInsert_found] at h2
  exact ⟨h2.2.1, h2.2.2.2.2.1, h2.2.2.2.2.2⟩

/-! ## Leaf-level insertion lemmas (towards C2 and C1) -/

theorem leafInsert_cons_lt (a k v : Nat) (w : List Nat) (K : List Nat)
    (V : List (List Nat)) (h : a < k) :
    leafInsert (a :: K) (w :: V) k v
      = (a :: (leafInsert K V k v).1, w :: (leafInsert K V k v).2) := by
  simp only [leafInsert, lowerIdx, List.takeWhile_cons, decide_eq_true h, if_true,
    List.length_cons, List.get?_cons_succ, List.getD_cons_succ, List.set_cons_succ,
    List.insertIdx_succ_cons]
  cases hk : K.get? (K.takeWhile (fun x => decide (x < k))).length with
  | none => rfl
  | some k0 =>
      by_cases he : k0 = k
      · simp [he]
      · simp [he]

theorem leafInsert_head_gt (a k v : Nat) (w : List Nat) (K : List Nat)
    (V : List (List Nat)) (h : k < a) :
    leafInsert (a :: K) (w :: V) k v = (k :: a :: K, [v] :: w :: V) := by
  have hd : decide (a < k) = false := decide_eq_false (by omega)
  have hne : a ≠ k := by omega
  simp [leafInsert, lowerIdx, List.takeWhile_cons, hd, hne]

theorem leafInsert_nil (k v : Nat) : leafInsert [] [] k v = ([k], [[v]]) := by
  simp [leafInsert, lowerIdx]

/-- Inserting an absent key: the keys/values rows of the leaf gain exactly the row
`(k, [v])`, up to position. -/
theorem leafInsert_notMem (K : List Nat) (V : List (List Nat)) (k v : Nat)
    (hlen : K.length = V.length) (hmem : k ∉ K) :
    ((leafInsert K V k v).1.zip (leafInsert K V k v).2).Perm ((k, [v]) :: K.zip V) ∧
      (leafInsert K V k v).1.length = K.length + 1 ∧
      (leafInsert K V k v).2.length = V.length + 1 ∧
      (∀ x, x ∈ (leafInsert K V k v).1 ↔ x = k ∨ x ∈ K) := by
  induction K generalizing V with
  | nil =>
      cases V with
      | nil => simp [leafInsert_nil]
      | cons w V => simp at hlen
  | cons a K ih =>
      cases V with
      | nil => simp at hlen
      | cons w V =>
          have hka : k ≠ a := fun he => hmem (by simp [he])
          have hmem2 : k ∉ K := fun hm => hmem (by simp [hm])
          rcases Nat.lt_or_ge a k with hlt | hge
          · have hr := ih V (by simpa using hlen) hmem2
            rw [leafInsert_cons_lt a k v w K V hlt]
            dsimp only
            refine ⟨?_, by simp [hr.2.1], by simp [hr.2.2.1], ?_⟩
            · rw [List.zip_cons_cons, List.zip_cons_cons]
              exact (hr.1.cons (a, w)).trans (List.Perm.swap (k, [v]) (a, w) (K.zip V))
            · intro x
              simp only [List.mem_cons, hr.2.2.2 x]
              tauto
          · have hlt2 : k < a := by omega
            rw [leafInsert_head_gt a k v w K V hlt2]
            dsimp only
            exact ⟨by simp, by simp, by simp, fun x => List.mem_cons⟩

/-- Inserting an absent key into a strictly sorted leaf keeps it strictly sorted. -/
theorem leafInsert_notMem_sorted (K : List Nat) (V : List (List Nat)) (k v : Nat)
    (hlen : K.length = V.length) (hsort : List.Chain' (· < ·) K) (hmem : k ∉ K) :
    List.Chain' (· < ·) (leafInsert K V k v).1 := by
  induction K generalizing V with
  | nil =>
      cases V with
      | nil => simp [leafInsert_nil]
      | cons w V => simp at hlen
  | cons a K ih =>
      cases V with
      | nil => simp at hlen
      | cons w V =>
          have hka : k ≠ a := fun he => hmem (by simp [he])
          have hmem2 : k ∉ K := fun hm => hmem (by simp [hm])
          have hsort2 : List.Chain' (· < ·) K := hsort.tail
          rcases Nat.lt_or_ge a k with hlt | hge
          · rw [leafInsert_cons_lt a k v w K V hlt]
            dsimp only
            rw [List.chain'_iff_pairwise] at hsort ⊢
            rw [List.pairwise_cons]
            refine ⟨?_, by
              rw [← List.chain'_iff_pairwise]
              exact ih V (by simpa using hlen) hsort2 hmem2⟩
            intro b hb
            rcases ((leafInsert_notMem K V k v (by simpa using hlen) hmem2).2.2.2 b).1 hb with
              rfl | hbK
            · exact hlt
            · exact (List.pairwise_cons.1 hsort).1 b hbK
          · have hlt2 : k < a := by omega
            rw [leafInsert_head_gt a k v w K V hlt2]
            exact hsort.cons hlt2


/-! ## Claim C2 — no-split round trip -/

theorem insertList_cons (f : Nat) (s : TreeState) (q : Nat × Nat) (ps : List (Nat × Nat)) :
    insertList f s (q :: ps) = insertList f (insert f s q.1 q.2).1 ps := rfl

/-- A whole run of inserts that never overflows the leaf: the tree stays a single
leaf at page 1 accumulating all the rows. -/
theorem insertList_single_leaf (order f : Nat) (ps : List (Nat × Nat)) :
    ∀ (s : TreeState) (K : List Nat) (V : List (List Nat)),
      SingleLeafState s order K V → K.length = V.length → List.Chain' (· < ·) K →
      (K ++ ps.map Prod.fst).Nodup → K.length + ps.length ≤ order - 1 →
      ∃ K2 V2, SingleLeafState (insertList (f + 1) s ps) order K2 V2 ∧
        K2.length = V2.length ∧ K2.length = K.length + ps.length ∧
        List.Chain' (· < ·) K2 ∧
        (K2.zip V2).Perm ((ps.map fun q => (q.1, [q.2])) ++ K.zip V) := by
  induction ps with
  | nil =>
      intro s K V hs hlen hsort hnd hcap
      exact ⟨K, V, hs, hlen, by simp, hsort, by simp⟩
  | cons q ps ih =>
      intro s K V hs hlen hsort hnd hcap
      obtain ⟨k, v⟩ := q
      simp only [List.map_cons, List.length_cons] at hnd hcap
      have hkK : k ∉ K := by
        intro hk
        exact (List.disjoint_of_nodup_append hnd) hk (by simp)
      have hfacts := leafInsert_notMem K V k v hlen hkK
      have hsorted1 := leafInsert_notMem_sorted K V k v hlen hsort hkK
      have hns : ¬(order - 1 < (leafInsert K V k v).1.length) := by
        rw [hfacts.2.1]; omega
      have hs1 := insert_step_single_leaf order f k v K V s hs hns
      have hlen1 : (leafInsert K V k v).1.length = (leafInsert K V k v).2.length := by
        rw [hfacts.2.1, hfacts.2.2.1, hlen]
      have hK1perm : (leafInsert K V k v).1.Perm (k :: K) := by
        have h1 : ((leafInsert K V k v).1.zip (leafInsert K V k v).2).map Prod.fst
            = (leafInsert K V k v).1 := List.map_fst_zip _ _ (le_of_eq hlen1)
        have h2 : (((k, [v]) :: K.zip V)).map Prod.fst = k :: K := by
          simp [List.map_fst_zip K V (le_of_eq hlen)]
        have := hfacts.1.map Prod.fst
        rwa [h1, h2] at this
      have hnd1 : ((leafInsert K V k v).1 ++ ps.map Prod.fst).Nodup := by
        rw [List.Perm.nodup_iff (hK1perm.append_right (ps.map Prod.fst))]
        rw [List.cons_append]
        have hmid : (K ++ k :: ps.map Prod.fst).Perm (k :: (K ++ ps.map Prod.fst)) :=
          List.perm_middle
        exact hmid.nodup_iff.mp hnd
      have hcap1 : (leafInsert K V k v).1.length + ps.length ≤ order - 1 := by
        rw [hfacts.2.1]; omega
      obtain ⟨K2, V2, hs2, hl2, hlen2, hsort2, hperm2⟩ :=
        ih (insert (f + 1) s k v).1 (leafInsert K V k v).1 (leafInsert K V k v).2
          hs1 hlen1 hsorted1 hnd1 hcap1
      refine ⟨K2, V2, by rwa [insertList_cons], hl2, ?_, hsort2, ?_⟩
      · rw [hlen2, hfacts.2.1]
        simp only [List.length_cons]
        omega
      · refine hperm2.trans ?_
        refine ((hfacts.1.append_left (ps.map fun q => (q.1, [q.2]))).trans ?_)
        simp only [List.map_cons]
        exact List.perm_middle

/-- A nonempty run of at most `order − 1` distinct-key inserts from the empty tree
keeps the whole tree a single leaf at page 1 holding exactly the inserted rows. -/
theorem run_from_empty (order f : Nat) (ps : List (Nat × Nat)) (hne : ps ≠ [])
    (hnd : (ps.map Prod.fst).Nodup) (hcap : ps.length ≤ order - 1) :
    ∃ K V, SingleLeafState (insertList (f + 1) (emptyState order) ps) order K V ∧
      K.length = V.length ∧ K.length = ps.length ∧ List.Chain' (· < ·) K ∧
      (K.zip V).Perm (ps.map fun q => (q.1, [q.2])) := by
  obtain ⟨q, ps, rfl⟩ : ∃ q ps2, ps = q :: ps2 := by
    cases ps with
    | nil => exact absurd rfl hne
    | cons q ps2 => exact ⟨q, ps2, rfl⟩
  simp only [List.map_cons, List.length_cons] at hnd hcap
  have h1 := singleLeaf_after_first_insert order (f + 1) q.1 q.2
  obtain ⟨K2, V2, hs2, hl2, hlen2, hsort2, hperm2⟩ :=
    insertList_single_leaf order f ps (insert (f + 1) (emptyState order) q.1 q.2).1
      [q.1] [[q.2]] h1 (by simp) (by simp) (by simpa using hnd) (by simp; omega)
  rw [insertList_cons]
  refine ⟨K2, V2, hs2, hl2, by simp [hlen2, Nat.add_comm], hsort2, ?_⟩
  refine hperm2.trans ?_
  simp only [List.zip_cons_cons, List.zip_nil_right, List.map_cons]
  exact List.perm_append_singleton _ _

/-- The key list of the accumulated leaf is a permutation of the inserted keys. -/
theorem leaf_keys_perm (K : List Nat) (V : List (List Nat)) (ps : List (Nat × Nat))
    (hlen : K.length = V.length)
    (hperm : (K.zip V).Perm (ps.map fun q => (q.1, [q.2]))) :
    K.Perm (ps.map Prod.fst) := by
  have h1 : (K.zip V).map Prod.fst = K := List.map_fst_zip _ _ (le_of_eq hlen)
  have h2 : ((ps.map fun q => (q.1, [q.2])).map Prod.fst) = ps.map Prod.fst := by
    simp
  have := hperm.map Prod.fst
  rwa [h1, h2] at this

/-- C2 (amended): for `3 ≤ order ≤ 341`, inserting `order − 1` or fewer distinct
keys (at least one) into an empty tree produces a tree whose root page 1 holds a
single Leaf node — every other page is unwritten — containing exactly the
inserted keys in strictly increasing order, each key's value sequence being the
singleton of its inserted value, and `next_leaf_page_ = 0`.  The bound
`order ≤ 341` keeps every leaf the run persists at `≤ order − 1 ≤ 340` singleton
keys, i.e. `≤ 9 + 12·340 = 4089 ≤ 4096` serialised bytes, the regime where the
node store equals the on-disk page; at `order = 342` the claim fails of the
program (`no_split_overflow_cex`): the 341-key leaf is 4101 bytes and the
bound-checkless `SerializeLeaf` truncates it. -/
theorem no_split_run (order fuel : Nat) (ps : List (Nat × Nat)) (h3 : 3 ≤ order)
    (h341 : order ≤ 341)
    (hf : 1 ≤ fuel) (hne : ps ≠ []) (hnd : (ps.map Prod.fst).Nodup)
    (hcap : ps.length ≤ order - 1) :
    ∃ K V, (insertList fuel (emptyState order) ps).rootPage = 1 ∧
      (insertList fuel (emptyState order) ps).medium.store 1 = some (.leaf K V 0) ∧
      (∀ p, p ≠ 1 → (insertList fuel (emptyState order) ps).medium.store p = none) ∧
      List.Chain' (· < ·) K ∧ K.length = V.length ∧
      (K.zip V).Perm (ps.map fun q => (q.1, [q.2])) := by
  obtain ⟨f, rfl⟩ : ∃ f, fuel = f + 1 := ⟨fuel - 1, by omega⟩
  obtain ⟨K, V, hs, hl, hlen, hsort, hperm⟩ := run_from_empty order f ps hne hnd hcap
  exact ⟨K, V, hs.2.1, hs.2.2.2.2.1, hs.2.2.2.2.2, hsort, hl, hperm⟩

/-- Witness for `no_split_run` at the spec example: order 4,
insert (10,100),(20,200),(30,300). -/
theorem no_split_run_witness :
    3 ≤ 4 ∧ (4:Nat) ≤ 341 ∧ 1 ≤ (1:Nat) ∧
      ([(10, 100), (20, 200), (30, 300)] : List (Nat × Nat)) ≠ [] ∧
      (∃ K V,
        (insertList 1 (emptyState 4) [(10, 100), (20, 200), (30, 300)]).rootPage = 1 ∧
        (insertList 1 (emptyState 4) [(10, 100), (20, 200), (30, 300)]).medium.store 1
          = some (.leaf K V 0) ∧
        (∀ p, p ≠ 1 →
          (insertList 1 (emptyState 4) [(10, 100), (20, 200), (30, 300)]).medium.store p
            = none) ∧
        List.Chain' (· < ·) K ∧ K.length = V.length ∧
        (K.zip V).Perm ([(10, 100), (20, 200), (30, 300)].map fun q => (q.1, [q.2]))) :=
  ⟨by decide, by decide, by decide, by decide,
    no_split_run 4 1 [(10, 100), (20, 200), (30, 300)] (by decide) (by decide)
      (by decide) (by decide) (by decide) (by decide)⟩

/-- Witness for `duplicate_key_accumulates`. -/
theorem duplicate_key_accumulates_witness :
    3 ≤ 3 ∧ (1:Nat) ≠ 2 ∧ 1 ≤ (1:Nat) ∧
      ((insert 1 (insert 1 (emptyState 3) 5 1).1 5 2).1.rootPage = 1 ∧
        (insert 1 (insert 1 (emptyState 3) 5 1).1 5 2).1.medium.store 1
          = some (.leaf [5] [[1, 2]] 0) ∧
        ∀ p, p ≠ 1 →
          (insert 1 (insert 1 (emptyState 3) 5 1).1 5 2).1.medium.store p = none) :=
  ⟨by decide, by decide, by decide,
    duplicate_key_accumulates 3 1 5 1 2 (by decide) (by decide) (by decide)⟩

/-! ## Claim C1 — split correctness -/

/-- One `Insert` on a single-leaf tree that **does** overflow the leaf: the call
runs `SplitLeaf` (mid = size/2, new right page 2 taking the upper half and the old
`next_leaf`, left half keeping page 1 and pointing at page 2) and then grows the
root: a fresh Internal root at page 3 with one separator and children `[1, 2]`
(lines 132–144; the `is_root_ = true` flag is not persisted). -/
theorem insert_step_single_leaf_split (order f k v : Nat) (K : List Nat)
    (V : List (List Nat)) (s : TreeState) (hs : SingleLeafState s order K V)
    (hov : order - 1 < (leafInsert K V k v).1.length) :
    (insert (f + 1) s k v).1.rootPage = 3 ∧
      (insert (f + 1) s k v).1.nextPage = 4 ∧
      (insert (f + 1) s k v).1.medium.store 1
        = some (.leaf ((leafInsert K V k v).1.take ((leafInsert K V k v).1.length / 2))
            ((leafInsert K V k v).2.take ((leafInsert K V k v).1.length / 2)) 2) ∧
      (insert (f + 1) s k v).1.medium.store 2
        = some (.leaf ((leafInsert K V k v).1.drop ((leafInsert K V k v).1.length / 2))
            ((leafInsert K V k v).2.drop ((leafInsert K V k v).1.length / 2)) 0) ∧
      (insert (f + 1) s k v).1.medium.store 3
        = some (.internal
            [((leafInsert K V k v).1.drop ((leafInsert K V k v).1.length / 2)).headD 0]
            [1, 2] false) ∧
      ∀ p, p ≠ 1 → p ≠ 2 → p ≠ 3 → (insert (f + 1) s k v).1.medium.store p = none := by
  obtain ⟨hord, hroot, hnext, hfails, hstore, hrest⟩ := hs
  unfold insert
  rw [hroot]
  simp only [Nat.one_ne_zero, if_false, insertRec, hstore, hord, if_pos hov, splitLeafAt,
    allocatePage, hnext, writePage, hfails, Bool.false_eq_true, nodeToDisk, u32]
  refine ⟨by trivial, by trivial, by norm_num, by norm_num, by norm_num, fun p h1 h2 h3 => ?_⟩
  simp [h1, h2, h3, hrest p h1]

theorem insertList_append_singleton (f : Nat) (s : TreeState) (A : List (Nat × Nat))
    (q : Nat × Nat) :
    insertList f s (A ++ [q]) = (insert f (insertList f s A) q.1 q.2).1 := by
  simp [insertList, List.foldl_append]

/-- C1: inserting `order` distinct keys into an empty tree forces exactly one leaf
split.  The final tree has exactly the pages 1, 2, 3 (so `next_page_ = 4`: one
page for the first leaf, one for the split's right half, one for the new root):
the root, page 3, is an Internal node with exactly 1 separator key and the 2
children `[1, 2]`; the left child leaf (page 1) holds the first half
`K.take (order / 2)` of the sorted keys and its `next_leaf_page_` is 2 — the right
child's page number; the right child leaf (page 2) holds the second half
`K.drop (order / 2)` and its `next_leaf_page_` is 0 (none).  `K` here is the sorted
sequence of all inserted keys (`Chain' (<)` and a permutation of the inserts),
with `V` its aligned singleton value rows.  The claim is amended with
`order ≤ 341`: the run's largest persisted node is the pre-split leaf of
`order − 1 ≤ 340` singleton keys (`≤ 4089 ≤ 4096` bytes; the split halves and
the 17-byte root are smaller), so every write fits its 4096-byte page and the
node store is byte-exact; at `order = 342` the program already truncates the
4101-byte pre-split leaf (`split_overflow_cex`) and the claimed final pages are
false of it. -/
theorem split_correctness (order fuel : Nat) (ps : List (Nat × Nat)) (h3 : 3 ≤ order)
    (h341 : order ≤ 341)
    (hf : 1 ≤ fuel) (hnd : (ps.map Prod.fst).Nodup) (hlen : ps.length = order) :
    ∃ K V sep,
      (insertList fuel (emptyState order) ps).rootPage = 3 ∧
      (insertList fuel (emptyState order) ps).nextPage = 4 ∧
      (insertList fuel (emptyState order) ps).medium.store 3
        = some (.internal [sep] [1, 2] false) ∧
      (insertList fuel (emptyState order) ps).medium.store 1
        = some (.leaf (K.take (order / 2)) (V.take (order / 2)) 2) ∧
      (insertList fuel (emptyState order) ps).medium.store 2
        = some (.leaf (K.drop (order / 2)) (V.drop (order / 2)) 0) ∧
      (∀ p, p ≠ 1 → p ≠ 2 → p ≠ 3 →
        (insertList fuel (emptyState order) ps).medium.store p = none) ∧
      List.Chain' (· < ·) K ∧ K.length = order ∧ K.length = V.length ∧
      (K.zip V).Perm (ps.map fun q => (q.1, [q.2])) ∧
      sep = (K.drop (order / 2)).headD 0 := by
  obtain ⟨f, rfl⟩ : ∃ f, fuel = f + 1 := ⟨fuel - 1, by omega⟩
  have hpsne : ps ≠ [] := by
    intro h
    rw [h] at hlen
    simp at hlen
    omega
  obtain ⟨A, q, rfl⟩ : ∃ A q, ps = A ++ [q] :=
    ⟨ps.dropLast, ps.getLast hpsne, (List.dropLast_append_getLast hpsne).symm⟩
  have hAlen : A.length = order - 1 := by
    have := hlen
    simp only [List.length_append, List.length_cons, List.length_nil] at this
    omega
  have hAne : A ≠ [] := by
    intro h
    rw [h] at hAlen
    simp at hAlen
    omega
  have hndA : (A.map Prod.fst).Nodup := by
    rw [List.map_append] at hnd
    exact (List.nodup_append.mp hnd).1
  obtain ⟨K0, V0, hs0, hl0, hlen0, hsort0, hperm0⟩ :=
    run_from_empty order f A hAne hndA (by omega)
  have hkK0 : q.1 ∉ K0 := by
    intro hk
    have hKp := leaf_keys_perm K0 V0 A hl0 hperm0
    have hkA : q.1 ∈ A.map Prod.fst := hKp.mem_iff.mp hk
    rw [List.map_append] at hnd
    exact (List.disjoint_of_nodup_append hnd) hkA (by simp)
  have hfacts := leafInsert_notMem K0 V0 q.1 q.2 hl0 hkK0
  have hsort1 := leafInsert_notMem_sorted K0 V0 q.1 q.2 hl0 hsort0 hkK0
  have hK1len : (leafInsert K0 V0 q.1 q.2).1.length = order := by
    rw [hfacts.2.1, hlen0, hAlen]
    omega
  have hov : order - 1 < (leafInsert K0 V0 q.1 q.2).1.length := by
    rw [hK1len]
    omega
  obtain ⟨hr1, hr2, hr3, hr4, hr5, hr6⟩ :=
    insert_step_single_leaf_split order f q.1 q.2 K0 V0 _ hs0 hov
  rw [insertList_append_singleton]
  rw [hK1len] at hr3 hr4 hr5
  refine ⟨(leafInsert K0 V0 q.1 q.2).1, (leafInsert K0 V0 q.1 q.2).2,
    ((leafInsert K0 V0 q.1 q.2).1.drop (order / 2)).headD 0,
    hr1, hr2, hr5, hr3, hr4, hr6, hsort1, hK1len, ?_, ?_, rfl⟩
  · rw [hfacts.2.1, hfacts.2.2.1, hl0]
  · refine hfacts.1.trans ?_
    refine (hperm0.cons (q.1, [q.2])).trans ?_
    rw [List.map_append]
    exact (List.perm_append_singleton _ _).symm

/-- Witness for `split_correctness` at the spec example: order 4, inserting
(10,100),(20,200),(30,300),(40,400). -/
theorem split_correctness_witness :
    3 ≤ 4 ∧ (4:Nat) ≤ 341 ∧ 1 ≤ (1:Nat) ∧
      (([(10, 100), (20, 200), (30, 300), (40, 400)] :
          List (Nat × Nat)).map Prod.fst).Nodup ∧
      (∃ K V sep,
        (insertList 1 (emptyState 4) [(10, 100), (20, 200), (30, 300), (40, 400)]).rootPage
          = 3 ∧
        (insertList 1 (emptyState 4)
          [(10, 100), (20, 200), (30, 300), (40, 400)]).nextPage = 4 ∧
        (insertList 1 (emptyState 4)
            [(10, 100), (20, 200), (30, 300), (40, 400)]).medium.store 3
          = some (.internal [sep] [1, 2] false) ∧
        (insertList 1 (emptyState 4)
            [(10, 100), (20, 200), (30, 300), (40, 400)]).medium.store 1
          = some (.leaf (K.take (4 / 2)) (V.take (4 / 2)) 2) ∧
        (insertList 1 (emptyState 4)
            [(10, 100), (20, 200), (30, 300), (40, 400)]).medium.store 2
          = some (.leaf (K.drop (4 / 2)) (V.drop (4 / 2)) 0) ∧
        (∀ p, p ≠ 1 → p ≠ 2 → p ≠ 3 →
          (insertList 1 (emptyState 4)
            [(10, 100), (20, 200), (30, 300), (40, 400)]).medium.store p = none) ∧
        List.Chain' (· < ·) K ∧ K.length = 4 ∧ K.length = V.length ∧
        (K.zip V).Perm ([(10, 100), (20, 200), (30, 300), (40, 400)].map
          fun q => (q.1, [q.2])) ∧
        sep = (K.drop (4 / 2)).headD 0) :=
  ⟨by decide, by decide, by decide, by decide,
    split_correctness 4 1 [(10, 100), (20, 200), (30, 300), (40, 400)] (by decide)
      (by decide) (by decide) (by decide) (by decide)⟩

/-! ## Page-capacity counterexamples (C1, C2)

`SerializeLeaf` (b_plus_tree.h:269-292) lays the leaf into the fixed 4096-byte
page with no bound check, so a leaf needing more than `pageSize` bytes overruns
the buffer and only a truncated image is persisted.  The node-level store is an
exact model of the disk only below that bound; the size bookkeeping here makes
the bound explicit, and the two counterexamples exhibit runs — admitted by the
unbounded original claims — in which the source writes an overfull leaf. -/

theorem encodeEntries_length (E : List (Nat × List Nat)) :
    (encodeEntries E).length = (E.map (fun p => 8 + 4 * p.2.length)).sum := by
  induction E with
  | nil => rfl
  | cons p E ih =>
      obtain ⟨k, v⟩ := p
      have hw : ∀ n : Nat, (writeLE32 n).length = 4 := fun _ => rfl
      simp only [encodeEntries, List.length_append, List.map_cons, List.sum_cons, ih,
        flatMap_write_length, hw]

/-- The byte size `SerializeLeaf` needs for a leaf: 9 fixed bytes (tag, next,
count) plus, per key, 8 bytes of key/value-count and 4 bytes per value. -/
theorem serializedSize_leaf (K : List Nat) (V : List (List Nat)) (nx : Nat) :
    serializedSize (.leaf K V nx)
      = 9 + ((K.zip V).map (fun p => 8 + 4 * p.2.length)).sum := by
  have hw : ∀ n : Nat, (writeLE32 n).length = 4 := fun _ => rfl
  simp only [serializedSize, encodeNode, List.length_cons, List.length_append, hw,
    encodeEntries_length]
  omega

/-- A no-split run of `n` distinct-key inserts accumulates a leaf whose
`SerializeLeaf` image is exactly `9 + 12·n` bytes (each key carries a single
value). -/
theorem no_split_leaf_size (order fuel : Nat) (ps : List (Nat × Nat)) (hf : 1 ≤ fuel)
    (hne : ps ≠ [])
    (hnd : (ps.map Prod.fst).Nodup) (hcap : ps.length ≤ order - 1) :
    ∃ K V,
      (insertList fuel (emptyState order) ps).rootPage = 1 ∧
      (insertList fuel (emptyState order) ps).medium.store 1
        = some (.leaf K V 0) ∧
      serializedSize (.leaf K V 0) = 9 + 12 * ps.length := by
  obtain ⟨f, rfl⟩ : ∃ f, fuel = f + 1 := ⟨fuel - 1, by omega⟩
  obtain ⟨K, V, hs, hl, hlen, hsort, hperm⟩ := run_from_empty order f ps hne hnd hcap
  refine ⟨K, V, hs.2.1, hs.2.2.2.2.1, ?_⟩
  rw [serializedSize_leaf]
  have h1 : ((K.zip V).map (fun p => 8 + 4 * p.2.length)).sum
      = ((ps.map fun q => (q.1, [q.2])).map (fun p => 8 + 4 * p.2.length)).sum :=
    (hperm.map _).sum_eq
  rw [h1]
  have h2 : ∀ qs : List (Nat × Nat),
      ((qs.map fun q => (q.1, [q.2])).map (fun p => 8 + 4 * p.2.length)).sum
        = 12 * qs.length := by
    intro qs
    induction qs with
    | nil => rfl
    | cons q qs ih =>
        simp only [List.map_cons, List.sum_cons, ih, List.length_cons]
        simp
        ring
  rw [h2]

/-- C2 counterexample: the original claim, quantified over **all** orders
`≥ 3`, is false of the program.  At `order = 342` a run of 341 distinct-key
inserts splits no leaf, but the leaf it persists at page 1 serialises to
`9 + 12·341 = 4101 > 4096` bytes: `SerializeLeaf`, which has no capacity check,
overruns the 4096-byte page buffer, only a truncated image reaches the disk,
and the persisted page does not hold the claimed rows. -/
theorem no_split_overflow_cex :
    ∃ K V,
      (insertList 1 (emptyState 342)
          ((List.range 341).map (fun i => (i + 1, 0)))).rootPage = 1 ∧
      (insertList 1 (emptyState 342)
          ((List.range 341).map (fun i => (i + 1, 0)))).medium.store 1
        = some (Node.leaf K V 0) ∧
      pageSize < serializedSize (Node.leaf K V 0) := by
  have hnd : ((((List.range 341).map (fun i => (i + 1, 0))).map Prod.fst)).Nodup := by
    rw [List.map_map]
    exact List.Nodup.map (fun a b h => by simpa using h) (List.nodup_range 341)
  have hne : (List.range 341).map (fun i => (i + 1, 0)) ≠ [] := by
    intro h
    have h0 := congrArg List.length h
    rw [List.length_map, List.length_range, List.length_nil] at h0
    exact absurd h0 (by norm_num)
  have hcap : ((List.range 341).map (fun i => (i + 1, 0))).length ≤ 342 - 1 := by
    rw [List.length_map, List.length_range]
  obtain ⟨K, V, h1, h2, h3⟩ := no_split_leaf_size 342 1
    ((List.range 341).map (fun i => (i + 1, 0))) (by norm_num) hne hnd hcap
  refine ⟨K, V, h1, h2, ?_⟩
  rw [h3]
  simp only [List.length_map, List.length_range]
  norm_num [pageSize]

/-- C1 counterexample: the original claim over all orders `≥ 3` is false of the
program.  At `order = 342` the 342-insert run passes through its first 341
no-split inserts, after which the persisted page-1 leaf already serialises to
`4101 > 4096` bytes — `SerializeLeaf` has overrun the page buffer and the
on-disk state diverges from the model before the final, splitting insert even
runs — so the claimed exact final pages are not what the program produces.  The
run below is the `take 341` prefix of the full 342-insert run. -/
theorem split_overflow_cex :
    ∃ K V,
      (insertList 1 (emptyState 342)
          (((List.range 342).map (fun i => (i + 1, 0))).take 341)).medium.store 1
        = some (Node.leaf K V 0) ∧
      pageSize < serializedSize (Node.leaf K V 0) := by
  have he : (((List.range 342).map (fun i => (i + 1, 0))).take 341)
      = (List.range 341).map (fun i => (i + 1, 0)) := by
    rw [← List.map_take, List.take_range]
    norm_num
  rw [he]
  have hnd : ((((List.range 341).map (fun i => (i + 1, 0))).map Prod.fst)).Nodup := by
    rw [List.map_map]
    exact List.Nodup.map (fun a b h => by simpa using h) (List.nodup_range 341)
  have hne : (List.range 341).map (fun i => (i + 1, 0)) ≠ [] := by
    intro h
    have h0 := congrArg List.length h
    rw [List.length_map, List.length_range, List.length_nil] at h0
    exact absurd h0 (by norm_num)
  have hcap : ((List.range 341).map (fun i => (i + 1, 0))).length ≤ 342 - 1 := by
    rw [List.length_map, List.length_range]
  obtain ⟨K, V, h1, h2, h3⟩ := no_split_leaf_size 342 1
    ((List.range 341).map (fun i => (i + 1, 0))) (by norm_num) hne hnd hcap
  refine ⟨K, V, h2, ?_⟩
  rw [h3]
  simp only [List.length_map, List.length_range]
  norm_num [pageSize]

/-! ## Claim C10 — frame property of Insert -/

theorem writePage_store_ne (m : Medium) (q p : Nat) (nd : Node) (hne : p ≠ q) :
    ((writePage m q nd).1).store p = m.store p := by
  unfold writePage
  split
  · rfl
  · simp [hne]

theorem writePage_fails (m : Medium) (q : Nat) (nd : Node) :
    ((writePage m q nd).1).fails = m.fails := by
  unfold writePage
  split <;> rfl

/-- The allocator cursor never decreases across `InsertRecursive` and advances by
at most `fuel` (one allocation per recursion level), provided it does not wrap. -/
theorem insertRec_np (order : Nat) (fuel : Nat) :
    ∀ (s : Medium × Nat) (page key value : Nat), s.2 + fuel < u32 →
      s.2 ≤ (insertRec order fuel s page key value).1.2 ∧
      (insertRec order fuel s page key value).1.2 ≤ s.2 + fuel := by
  induction fuel with
  | zero => intro s page key value hw; simp [insertRec]
  | succ f ih =>
      intro s page key value hw
      cases hsp : s.1.store page with
      | none => simp [insertRec, hsp]
      | some nd =>
          cases nd with
          | leaf ks vs nx =>
              simp only [insertRec, hsp]
              by_cases hov : order - 1 < (leafInsert ks vs key value).1.length
              · simp only [if_pos hov, splitLeafAt, allocatePage]
                have he : (s.2 + 1) % u32 = s.2 + 1 := Nat.mod_eq_of_lt (by omega)
                rw [he]
                omega
              · simp only [if_neg hov]
                omega
          | internal ks cs b =>
              simp only [insertRec, hsp]
              have hchild := ih s (cs.getD (upperIdx ks key) 0) key value (by omega)
              cases hcp : (insertRec order f s (cs.getD (upperIdx ks key) 0) key value).2 with
              | none =>
                  simp only [hcp]
                  omega
              | some kp =>
                  obtain ⟨kp1, np1⟩ := kp
                  simp only [hcp]
                  by_cases hov : order <
                      (cs.insertIdx (upperIdx ks kp1 + 1) np1).length
                  · simp only [if_pos hov, splitInternalAt, allocatePage]
                    have hlt : (insertRec order f s (cs.getD (upperIdx ks key) 0)
                        key value).1.2 + 1 < u32 := by omega
                    rw [Nat.mod_eq_of_lt hlt]
                    omega
                  · simp only [if_neg hov]
                    omega

/-- Frame property of `InsertRecursive`: a page that is neither on the
root-to-leaf descent path of `key` nor among the pages the call allocates
(`[s.2, np')`, the cursor interval — exact because the cursor does not wrap)
keeps its exact contents.  This holds for **every** medium state, well-formed or
not: the function only ever writes the page it read on the way down or a page it
just allocated. -/
theorem insertRec_frame (order : Nat) (fuel : Nat) :
    ∀ (s : Medium × Nat) (page key value p : Nat), s.2 + fuel < u32 →
      p ∉ descentPath fuel s.1.store page key →
      (p < s.2 ∨ (insertRec order fuel s page key value).1.2 ≤ p) →
      (insertRec order fuel s page key value).1.1.store p = s.1.store p := by
  induction fuel with
  | zero => intro s page key value p hw hpath hfresh; simp [insertRec]
  | succ f ih =>
      intro s page key value p hw hpath hfresh
      cases hsp : s.1.store page with
      | none => simp [insertRec, hsp]
      | some nd =>
          cases nd with
          | leaf ks vs nx =>
              have hppage : p ≠ page := by
                intro h
                refine hpath ?_
                simp only [descentPath, hsp]
                exact List.mem_singleton.mpr h
              simp only [insertRec, hsp]
              by_cases hov : order - 1 < (leafInsert ks vs key value).1.length
              · simp only [if_pos hov, splitLeafAt, allocatePage]
                have hpnew : p ≠ s.2 := by
                  rcases hfresh with h | h
                  · omega
                  · simp only [insertRec, hsp, if_pos hov, splitLeafAt,
                      allocatePage] at h
                    rw [Nat.mod_eq_of_lt (by omega : s.2 + 1 < u32)] at h
                    omega
                rw [writePage_store_ne _ _ _ _ hpnew, writePage_store_ne _ _ _ _ hppage]
              · simp only [if_neg hov]
                rw [writePage_store_ne _ _ _ _ hppage]
          | internal ks cs b =>
              have hppage : p ≠ page := by
                intro h
                refine hpath ?_
                simp only [descentPath, hsp]
                exact List.mem_cons.mpr (Or.inl h)
              have hpchild : p ∉ descentPath f s.1.store (cs.getD (upperIdx ks key) 0)
                  key := by
                intro h
                refine hpath ?_
                simp only [descentPath, hsp]
                exact List.mem_cons.mpr (Or.inr h)
              have hnp := insertRec_np order f s (cs.getD (upperIdx ks key) 0) key value
                (by omega)
              simp only [insertRec, hsp]
              cases hcp : (insertRec order f s (cs.getD (upperIdx ks key) 0) key value).2
                with
              | none =>
                  simp only [hcp]
                  refine ih s _ key value p (by omega) hpchild ?_
                  rcases hfresh with h | h
                  · exact Or.inl h
                  · refine Or.inr ?_
                    simp only [insertRec, hsp, hcp] at h
                    exact h
              | some kp =>
                  obtain ⟨kp1, np1⟩ := kp
                  simp only [hcp]
                  by_cases hov : order < (cs.insertIdx (upperIdx ks kp1 + 1) np1).length
                  · simp only [if_pos hov, splitInternalAt, allocatePage]
                    have hchildnp : (insertRec order f s (cs.getD (upperIdx ks key) 0)
                        key value).1.2 + 1 < u32 := by omega
                    have hfresh2 : p < s.2 ∨
                        (insertRec order f s (cs.getD (upperIdx ks key) 0) key
                          value).1.2 ≤ p := by
                      rcases hfresh with h | h
                      · exact Or.inl h
                      · refine Or.inr ?_
                        simp only [insertRec, hsp, hcp, if_pos hov, splitInternalAt,
                          allocatePage] at h
                        rw [Nat.mod_eq_of_lt hchildnp] at h
                        omega
                    have hnew : p ≠ (insertRec order f s (cs.getD (upperIdx ks key) 0)
                        key value).1.2 := by
                      rcases hfresh with h2 | h2
                      · omega
                      · simp only [insertRec, hsp, hcp, if_pos hov, splitInternalAt,
                          allocatePage] at h2
                        rw [Nat.mod_eq_of_lt hchildnp] at h2
                        omega
                    rw [writePage_store_ne _ _ _ _ hnew, writePage_store_ne _ _ _ _ hppage]
                    exact ih s _ key value p (by omega) hpchild hfresh2
                  · simp only [if_neg hov]
                    rw [writePage_store_ne _ _ _ _ hppage]
                    refine ih s _ key value p (by omega) hpchild ?_
                    rcases hfresh with h | h
                    · exact Or.inl h
                    · refine Or.inr ?_
                      simp only [insertRec, hsp, hcp, if_neg hov] at h
                      exact h

/-- C10: frame property of `Insert`.  Every page that is neither on the
root-to-leaf descent path of `key` (computed on the pre-state) nor freshly
allocated during the call — the allocations are exactly the cursor interval
`[next_page, next_page')`, so "not fresh" is `p < next_page ∨ next_page' ≤ p` —
retains exactly its previous contents.  In particular an `Insert` causing no
split (where `next_page' = next_page`) rewrites only the one leaf page it
modified.  The bound `next_page + fuel + 1 < 2^32` says the 32-bit allocator
cursor does not wrap during this one call (a call allocates at most `fuel + 1`
pages). -/
theorem insert_frame (fuel : Nat) (s : TreeState) (key value p : Nat)
    (hw : s.nextPage + fuel + 1 < u32)
    (hpath : p ∉ descentPath fuel s.medium.store s.rootPage key)
    (hfresh : p < s.nextPage ∨ (insert fuel s key value).1.nextPage ≤ p) :
    (insert fuel s key value).1.medium.store p = s.medium.store p := by
  by_cases hroot : s.rootPage = 0
  · simp only [insert, if_pos hroot, allocatePage] at hfresh ⊢
    have hmod : (s.nextPage + 1) % u32 = s.nextPage + 1 :=
      Nat.mod_eq_of_lt (by omega)
    rw [hmod] at hfresh
    refine writePage_store_ne _ _ _ _ ?_
    rcases hfresh with h | h <;> omega
  · have hnp := insertRec_np s.order fuel (s.medium, s.nextPage) s.rootPage key value
      (by simp; omega)
    simp only [insert, if_neg hroot] at hfresh ⊢
    cases hcp : (insertRec s.order fuel (s.medium, s.nextPage) s.rootPage key value).2 with
    | none =>
        simp only [hcp] at hfresh ⊢
        exact insertRec_frame s.order fuel (s.medium, s.nextPage) s.rootPage key value p
          (by simp; omega) hpath hfresh
    | some kp =>
        obtain ⟨kp1, pp1⟩ := kp
        simp only [hcp, allocatePage] at hfresh ⊢
        have hmod : ((insertRec s.order fuel (s.medium, s.nextPage) s.rootPage key
            value).1.2 + 1) % u32 =
            (insertRec s.order fuel (s.medium, s.nextPage) s.rootPage key value).1.2 + 1 :=
          Nat.mod_eq_of_lt (by simp at hnp; omega)
        rw [hmod] at hfresh
        have hfresh2 : p < s.nextPage ∨
            (insertRec s.order fuel (s.medium, s.nextPage) s.rootPage key value).1.2 ≤ p := by
          rcases hfresh with h | h
          · exact Or.inl h
          · exact Or.inr (by omega)
        have hne : p ≠ (insertRec s.order fuel (s.medium, s.nextPage) s.rootPage key
            value).1.2 := by
          rcases hfresh2 with h | h
          · simp at hnp; omega
          · rcases hfresh with h2 | h2
            · simp at hnp; omega
            · omega
        rw [writePage_store_ne _ _ _ _ hne]
        exact insertRec_frame s.order fuel (s.medium, s.nextPage) s.rootPage key value p
          (by simp; omega) hpath hfresh2

/-- Witness for `insert_frame`: page 77 is untouched by the second insert. -/
theorem insert_frame_witness :
    ((insert 1 (emptyState 3) 5 7).1.nextPage + 1 + 1 < u32) ∧
      (77 ∉ descentPath 1 (insert 1 (emptyState 3) 5 7).1.medium.store
          (insert 1 (emptyState 3) 5 7).1.rootPage 6) ∧
      ((insert 1 (insert 1 (emptyState 3) 5 7).1 6 8).1.medium.store 77
        = (insert 1 (emptyState 3) 5 7).1.medium.store 77) :=
  ⟨by decide, by decide,
    insert_frame 1 (insert 1 (emptyState 3) 5 7).1 6 8 77 (by decide) (by decide)
      (Or.inr (by decide))⟩

/-! ## Claim C4 — the sorted/range invariant

`NodeWF st h page lo hi pgs` says: the subtree rooted at `page` in store `st` is a
well-formed B+ subtree of exact height `h` whose pages are exactly the list `pgs`
(pairwise distinct across subtrees), and **every key in it lies in `[lo, hi)`**:

* a leaf's `keys_` sequence is strictly increasing, within bounds, aligned with
  `values_`;
* an internal node's children interleave with its separator keys so that every key
  under `children_[i]` is `< keys_[i]` and every key under `children_[i+1]` is
  `≥ keys_[i]` (each child's window is `[keys_[i-1], keys_[i])`), and the separator
  keys themselves are strictly increasing (each separator is strictly above the
  window's left end and below its right end — see `KidsWFAux_sep_sorted`).
-/

/-- `lo ≤ k` where `lo = none` means no lower bound. -/
def okLo : Option Nat → Nat → Prop
  | none, _ => True
  | some l, k => l ≤ k

/-- `k < hi` where `hi = none` means no upper bound. -/
def okHi : Nat → Option Nat → Prop
  | _, none => True
  | k, some h => k < h

/-- `lo < k` strictly (trivial for `lo = none`). -/
def ltLo : Option Nat → Nat → Prop
  | none, _ => True
  | some l, k => l < k

/-- The children/separator interleaving of an internal node, parameterised by the
well-formedness predicate `NW` of the next level down: children `cs` split the
window `[lo, hi)` at the strictly increasing separators `ks`, and the page
footprints of the children are pairwise disjoint, concatenating to `pgs`. -/
def KidsWFAux (NW : Nat → Option Nat → Option Nat → List Nat → Prop) (hi : Option Nat) :
    Option Nat → List Nat → List Nat → List Nat → Prop
  | lo, [], cs, pgs => ∃ c, cs = [c] ∧ NW c lo hi pgs
  | lo, k :: ks, cs, pgs => ∃ c cs2 p1 p2, cs = c :: cs2 ∧ pgs = p1 ++ p2 ∧
      ltLo lo k ∧ okHi k hi ∧ NW c lo (some k) p1 ∧ (∀ x ∈ p1, x ∉ p2) ∧
      KidsWFAux NW hi (some k) ks cs2 p2

/-- Well-formedness of the subtree at `page` (height `h`, key window `[lo, hi)`,
page footprint `pgs`). -/
def NodeWF (st : Nat → Option Node) : Nat → Nat → Option Nat → Option Nat →
    List Nat → Prop
  | 0, page, lo, hi, pgs => ∃ ks vs nx, st page = some (.leaf ks vs nx) ∧
      List.Chain' (· < ·) ks ∧ (∀ k ∈ ks, okLo lo k ∧ okHi k hi) ∧
      ks.length = vs.length ∧ pgs = [page]
  | h + 1, page, lo, hi, pgs => ∃ ks cs b pgsk, st page = some (.internal ks cs b) ∧
      page ∉ pgsk ∧ pgs = page :: pgsk ∧
      KidsWFAux (fun c lo2 hi2 pp => NodeWF st h c lo2 hi2 pp) hi lo ks cs pgsk

/-- The whole-tree invariant (C4): either the tree is still empty, or the root
subtree is well-formed with an unbounded window, all its pages below the
allocation cursor; the medium is failure-free and the order is in range. -/
def TreeWF (s : TreeState) : Prop :=
  3 ≤ s.order ∧ (∀ q, s.medium.fails q = false) ∧
    (s.rootPage = 0 ∨ ∃ h pgs, NodeWF s.medium.store h s.rootPage none none pgs ∧
      ∀ x ∈ pgs, x < s.nextPage)

theorem ltLo_okLo {lo : Option Nat} {k : Nat} (h : ltLo lo k) : okLo lo k := by
  cases lo with
  | none => trivial
  | some l => exact Nat.le_of_lt h

theorem ltLo_of_ltLo_lt {lo : Option Nat} {a b : Nat} (h1 : ltLo lo a) (h2 : a < b) :
    ltLo lo b := by
  cases lo with
  | none => trivial
  | some l => exact Nat.lt_trans h1 h2

theorem okLo_of_okLo_le {lo : Option Nat} {a b : Nat} (h1 : okLo lo a) (h2 : a ≤ b) :
    okLo lo b := by
  cases lo with
  | none => trivial
  | some l => exact Nat.le_trans h1 h2

theorem okHi_of_lt_okHi {hi : Option Nat} {a b : Nat} (h1 : a < b) (h2 : okHi b hi) :
    okHi a hi := by
  cases hi with
  | none => trivial
  | some l => exact Nat.lt_trans h1 h2

/-- A well-formed subtree lives on its own footprint: changing the store outside
`pgs` does not disturb it. -/
theorem NodeWF_frame (st st2 : Nat → Option Node) :
    ∀ (h : Nat) (page : Nat) (lo hi : Option Nat) (pgs : List Nat),
      NodeWF st h page lo hi pgs → (∀ q ∈ pgs, st2 q = st q) →
      NodeWF st2 h page lo hi pgs := by
  intro h
  induction h with
  | zero =>
      intro page lo hi pgs hwf hag
      obtain ⟨ks, vs, nx, hst, hs, hb, hl, rfl⟩ := hwf
      exact ⟨ks, vs, nx, by rw [hag page (by simp)]; exact hst, hs, hb, hl, rfl⟩
  | succ h ih =>
      intro page lo hi pgs hwf hag
      obtain ⟨ks, cs, b, pgsk, hst, hpg, rfl, hkids⟩ := hwf
      refine ⟨ks, cs, b, pgsk, by rw [hag page (by simp)]; exact hst, hpg, rfl, ?_⟩
      clear hst hpg
      have hag2 : ∀ q ∈ pgsk, st2 q = st q := fun q hq => hag q (by simp [hq])
      clear hag
      induction ks generalizing lo cs pgsk with
      | nil =>
          obtain ⟨c, rfl, hc⟩ := hkids
          exact ⟨c, rfl, ih c lo hi pgsk hc hag2⟩
      | cons k ks ihk =>
          obtain ⟨c, cs2, p1, p2, rfl, rfl, hlt, hhi, hc, hdisj, htail⟩ := hkids
          refine ⟨c, cs2, p1, p2, rfl, rfl, hlt, hhi,
            ih c lo (some k) p1 hc (fun q hq => hag2 q (by simp [hq])), hdisj,
            ihk (some k) cs2 p2 htail (fun q hq => hag2 q (by simp [hq]))⟩

/-- Routing: `upper_bound` sends `key` to the unique child whose window contains
it. -/
theorem kids_route (NW : Nat → Option Nat → Option Nat → List Nat → Prop) :
    ∀ (hi lo : Option Nat) (ks cs pgs : List Nat) (key : Nat),
      KidsWFAux NW hi lo ks cs pgs → okLo lo key → okHi key hi →
      ∃ pp loC hiC, (∀ x ∈ pp, x ∈ pgs) ∧
        NW (cs.getD (upperIdx ks key) 0) loC hiC pp ∧ okLo loC key ∧ okHi key hiC := by
  intro hi lo ks
  induction ks generalizing lo with
  | nil =>
      intro cs pgs key hkids hlo hhi
      obtain ⟨c, rfl, hc⟩ := hkids
      exact ⟨pgs, lo, hi, fun x hx => hx, hc, hlo, hhi⟩
  | cons k ks ihk =>
      intro cs pgs key hkids hlo hhi
      obtain ⟨c, cs2, p1, p2, rfl, rfl, hlt, hhik, hc, hdisj, htail⟩ := hkids
      by_cases hkey : k ≤ key
      · have hu : upperIdx (k :: ks) key = upperIdx ks key + 1 := by
          simp [upperIdx, List.takeWhile_cons, hkey, Nat.add_comm]
        rw [hu]
        obtain ⟨pp, loC, hiC, hsub, hnw, hlo2, hhi2⟩ :=
          ihk (some k) cs2 p2 key htail hkey hhi
        exact ⟨pp, loC, hiC, fun x hx => by simp [hsub x hx],
          by simpa using hnw, hlo2, hhi2⟩
      · have hu : upperIdx (k :: ks) key = 0 := by
          simp [upperIdx, List.takeWhile_cons, hkey]
        rw [hu]
        exact ⟨p1, lo, some k, fun x hx => by simp [hx], by simpa using hc, hlo,
          by simpa [okHi] using Nat.lt_of_not_le hkey⟩

/-- The separator keys of a well-formed internal node are strictly increasing,
strictly above the window's left end, below its right end. -/
theorem KidsWFAux_sep_sorted (NW : Nat → Option Nat → Option Nat → List Nat → Prop) :
    ∀ (hi lo : Option Nat) (ks cs pgs : List Nat),
      KidsWFAux NW hi lo ks cs pgs →
      List.Chain' (· < ·) ks ∧ (∀ k ∈ ks, ltLo lo k ∧ okHi k hi) ∧
        cs.length = ks.length + 1 := by
  intro hi lo ks
  induction ks generalizing lo with
  | nil =>
      intro cs pgs hkids
      obtain ⟨c, rfl, -⟩ := hkids
      exact ⟨by simp, by simp, by simp⟩
  | cons k ks ihk =>
      intro cs pgs hkids
      obtain ⟨c, cs2, p1, p2, rfl, rfl, hlt, hhik, -, -, htail⟩ := hkids
      obtain ⟨hs, hb, hlen⟩ := ihk (some k) cs2 p2 htail
      refine ⟨?_, ?_, by simp [hlen]⟩
      · rw [List.chain'_iff_pairwise, List.pairwise_cons]
        exact ⟨fun b hb2 => (hb b hb2).1, (List.chain'_iff_pairwise).mp hs⟩
      · intro x hx
        rcases List.mem_cons.mp hx with rfl | hx2
        · exact ⟨hlt, hhik⟩
        · exact ⟨ltLo_of_ltLo_lt hlt (hb x hx2).1, (hb x hx2).2⟩

/-- Frame lemma at the kids level. -/
theorem KidsWF_frame (st st2 : Nat → Option Node) (h : Nat) :
    ∀ (hi lo : Option Nat) (ks cs pgs : List Nat),
      KidsWFAux (NodeWF st h) hi lo ks cs pgs → (∀ q ∈ pgs, st2 q = st q) →
      KidsWFAux (NodeWF st2 h) hi lo ks cs pgs := by
  intro hi lo ks
  induction ks generalizing lo with
  | nil =>
      intro cs pgs hkids hag
      obtain ⟨c, rfl, hc⟩ := hkids
      exact ⟨c, rfl, NodeWF_frame st st2 h c lo hi pgs hc hag⟩
  | cons k ks ihk =>
      intro cs pgs hkids hag
      obtain ⟨c, cs2, p1, p2, rfl, rfl, hlt, hhik, hc, hdisj, htail⟩ := hkids
      exact ⟨c, cs2, p1, p2, rfl, rfl, hlt, hhik,
        NodeWF_frame st st2 h c lo (some k) p1 hc (fun q hq => hag q (by simp [hq])),
        hdisj, ihk (some k) cs2 p2 htail (fun q hq => hag q (by simp [hq]))⟩

/-- Splitting a kids structure at separator index `j`. -/
theorem KidsWFAux_split (NW : Nat → Option Nat → Option Nat → List Nat → Prop) :
    ∀ (j : Nat) (hi lo : Option Nat) (ks cs pgs : List Nat), j < ks.length →
      KidsWFAux NW hi lo ks cs pgs →
      ∃ p1 p2, pgs = p1 ++ p2 ∧
        KidsWFAux NW (some (ks.getD j 0)) lo (ks.take j) (cs.take (j + 1)) p1 ∧
        KidsWFAux NW hi (some (ks.getD j 0)) (ks.drop (j + 1)) (cs.drop (j + 1)) p2 ∧
        ltLo lo (ks.getD j 0) ∧ okHi (ks.getD j 0) hi ∧ (∀ x ∈ p1, x ∉ p2) := by
  intro j
  induction j with
  | zero =>
      intro hi lo ks cs pgs hj hkids
      cases ks with
      | nil => simp at hj
      | cons k ks2 =>
          obtain ⟨c, cs2, p1, p2, rfl, rfl, hlt, hhik, hc, hdisj, htail⟩ := hkids
          exact ⟨p1, p2, rfl, ⟨c, by simp, by simpa using hc⟩, by simpa using htail,
            hlt, hhik, hdisj⟩
  | succ j ihj =>
      intro hi lo ks cs pgs hj hkids
      cases ks with
      | nil => simp at hj
      | cons k ks2 =>
          obtain ⟨c, cs2, p1, p2, rfl, rfl, hlt, hhik, hc, hdisj, htail⟩ := hkids
          obtain ⟨p21, p22, rfl, hleft, hright, hltk, hhimid, hdisj2⟩ :=
            ihj hi (some k) ks2 cs2 p2 (by simpa using hj) htail
          have hkmid : k < ks2.getD j 0 := hltk
          refine ⟨p1 ++ p21, p22, by simp, ?_, ?_, ?_, ?_, ?_⟩
          · simp only [List.getD_cons_succ, List.take_succ_cons]
            exact ⟨c, cs2.take (j + 1), p1, p21, rfl, rfl, hlt, hkmid, hc,
              fun x hx => fun hx2 => hdisj x hx (by simp [hx2]), hleft⟩
          · simpa using hright
          · exact ltLo_of_ltLo_lt hlt hkmid
          · simpa using hhimid
          · intro x hx
            rcases List.mem_append.mp hx with hx1 | hx1
            · exact fun hx2 => hdisj x hx1 (by simp [hx2])
            · exact hdisj2 x hx1

/-- `fails` is untouched by `InsertRecursive`. -/
theorem insertRec_fails (order : Nat) (fuel : Nat) :
    ∀ (s : Medium × Nat) (page key value : Nat),
      (insertRec order fuel s page key value).1.1.fails = s.1.fails := by
  induction fuel with
  | zero => intro s page key value; simp [insertRec]
  | succ f ih =>
      intro s page key value
      cases hsp : s.1.store page with
      | none => simp [insertRec, hsp]
      | some nd =>
          cases nd with
          | leaf ks vs nx =>
              simp only [insertRec, hsp]
              by_cases hov : order - 1 < (leafInsert ks vs key value).1.length
              · simp only [if_pos hov, splitLeafAt, allocatePage]
                rw [writePage_fails, writePage_fails]
              · simp only [if_neg hov]
                rw [writePage_fails]
          | internal ks cs b =>
              simp only [insertRec, hsp]
              cases hcp : (insertRec order f s (cs.getD (upperIdx ks key) 0) key value).2
                with
              | none => simp only [hcp]; exact ih s _ key value
              | some kp =>
                  obtain ⟨kp1, np1⟩ := kp
                  simp only [hcp]
                  by_cases hov : order < (cs.insertIdx (upperIdx ks kp1 + 1) np1).length
                  · simp only [if_pos hov, splitInternalAt, allocatePage]
                    rw [writePage_fails, writePage_fails]
                    exact ih s _ key value
                  · simp only [if_neg hov]
                    rw [writePage_fails]
                    exact ih s _ key value

/-- On a sorted key list, `lower_bound` lands exactly on a present key. -/
theorem lowerIdx_mem_get (ks : List Nat) (key : Nat) (hs : List.Chain' (· < ·) ks)
    (hm : key ∈ ks) : ks.get? (lowerIdx ks key) = some key := by
  induction ks with
  | nil => simp at hm
  | cons a tl ih =>
      by_cases ha : a = key
      · subst ha
        have : lowerIdx (a :: tl) a = 0 := by
          simp [lowerIdx, List.takeWhile_cons]
        rw [this]
        rfl
      · have hmtl : key ∈ tl := by
          rcases List.mem_cons.mp hm with h | h
          · exact absurd h.symm ha
          · exact h
        have halt : a < key := by
          rw [List.chain'_iff_pairwise, List.pairwise_cons] at hs
          exact hs.1 key hmtl
        have : lowerIdx (a :: tl) key = lowerIdx tl key + 1 := by
          simp [lowerIdx, List.takeWhile_cons, halt, Nat.add_comm]
        rw [this]
        simpa using ih hs.tail hmtl

/-- What `leafInsert` guarantees on any sorted in-invariant leaf, hit or miss:
sortedness, length alignment, the key set grows by at most `key`, and the length
grows by at most one (exactly one on a miss, zero on a hit). -/
theorem leafInsert_general (ks : List Nat) (vs : List (List Nat)) (key value : Nat)
    (hlen : ks.length = vs.length) (hs : List.Chain' (· < ·) ks) :
    List.Chain' (· < ·) (leafInsert ks vs key value).1 ∧
      (leafInsert ks vs key value).1.length = (leafInsert ks vs key value).2.length ∧
      (∀ x ∈ (leafInsert ks vs key value).1, x ∈ ks ∨ x = key) ∧
      (leafInsert ks vs key value).1.length ≤ ks.length + 1 := by
  by_cases hm : key ∈ ks
  · have hget := lowerIdx_mem_get ks key hs hm
    have hred : leafInsert ks vs key value
        = (ks, vs.set (lowerIdx ks key) (vs.getD (lowerIdx ks key) [] ++ [value])) := by
      rw [leafInsert]
      simp only [hget]
      simp
    rw [hred]
    exact ⟨hs, by simp [hlen], fun x hx => Or.inl hx, by dsimp only; omega⟩
  · have h1 := leafInsert_notMem ks vs key value hlen hm
    have h2 := leafInsert_notMem_sorted ks vs key value hlen hs hm
    refine ⟨h2, by rw [h1.2.1, h1.2.2.1, hlen], fun x hx => ?_, by omega⟩
    rcases (h1.2.2.2 x).mp hx with h | h
    · exact Or.inr h
    · exact Or.inl h

/-- The head of a sorted list bounds all its members from below. -/
theorem sorted_head_le (a : Nat) (tl : List Nat) (hs : List.Chain' (· < ·) (a :: tl)) :
    ∀ y ∈ a :: tl, a ≤ y := by
  intro y hy
  rcases List.mem_cons.mp hy with rfl | hy2
  · exact Nat.le_refl y
  · rw [List.chain'_iff_pairwise, List.pairwise_cons] at hs
    exact Nat.le_of_lt (hs.1 y hy2)

theorem writePage_nofail (m : Medium) (p : Nat) (n : Node) (h : m.fails p = false) :
    writePage m p n
      = (⟨fun q => if q = p then some (nodeToDisk n) else m.store q, m.fails⟩, true) := by
  unfold writePage
  rw [h]
  simp

/-- The guarantees of one `InsertRecursive` call on a well-formed subtree
(frame for pages outside the subtree, and well-formedness of the result — either
the subtree updated in place, or, after a split, the two halves separated by the
promoted key, on pages drawn only from the old footprint and fresh allocations). -/
def RecOut (order f : Nat) (m : Medium) (np page key value h : Nat)
    (lo hi : Option Nat) (pgs : List Nat) : Prop :=
  (∀ q, q ∉ pgs → q < np →
    (insertRec order f (m, np) page key value).1.1.store q = m.store q) ∧
  match (insertRec order f (m, np) page key value).2 with
  | none => ∃ pgs2,
      NodeWF (insertRec order f (m, np) page key value).1.1.store h page lo hi pgs2 ∧
      ∀ x ∈ pgs2, (x ∈ pgs ∨ np ≤ x) ∧
        x < (insertRec order f (m, np) page key value).1.2
  | some kpp => ∃ pgsL pgsR,
      NodeWF (insertRec order f (m, np) page key value).1.1.store h page lo
        (some kpp.1) pgsL ∧
      NodeWF (insertRec order f (m, np) page key value).1.1.store h kpp.2
        (some kpp.1) hi pgsR ∧
      ltLo lo kpp.1 ∧ okHi kpp.1 hi ∧ (∀ x ∈ pgsL, x ∉ pgsR) ∧
      ∀ x ∈ pgsL ++ pgsR, (x ∈ pgs ∨ np ≤ x) ∧
        x < (insertRec order f (m, np) page key value).1.2

/-- The corresponding guarantee at the kids level: the routed child call leaves a
well-formed kids structure — unchanged shape without promotion, or with the
promoted separator and new page spliced in at the `upper_bound` position. -/
def KidsOut (order f : Nat) (m : Medium) (np key value h : Nat) (hi lo : Option Nat)
    (ks cs pgsk : List Nat) : Prop :=
  (∀ q, q ∉ pgsk → q < np →
    (insertRec order f (m, np) (cs.getD (upperIdx ks key) 0) key value).1.1.store q
      = m.store q) ∧
  match (insertRec order f (m, np) (cs.getD (upperIdx ks key) 0) key value).2 with
  | none => ∃ pgs2,
      KidsWFAux
        (NodeWF (insertRec order f (m, np) (cs.getD (upperIdx ks key) 0) key
          value).1.1.store h) hi lo ks cs pgs2 ∧
      ∀ x ∈ pgs2, (x ∈ pgsk ∨ np ≤ x) ∧
        x < (insertRec order f (m, np) (cs.getD (upperIdx ks key) 0) key value).1.2
  | some kpp => ∃ pgs2,
      KidsWFAux
        (NodeWF (insertRec order f (m, np) (cs.getD (upperIdx ks key) 0) key
          value).1.1.store h) hi lo
        (ks.insertIdx (upperIdx ks kpp.1) kpp.1)
        (cs.insertIdx (upperIdx ks kpp.1 + 1) kpp.2) pgs2 ∧
      ltLo lo kpp.1 ∧ okHi kpp.1 hi ∧
      ∀ x ∈ pgs2, (x ∈ pgsk ∨ np ≤ x) ∧
        x < (insertRec order f (m, np) (cs.getD (upperIdx ks key) 0) key value).1.2

/-- Kids-level preservation: given the node-level guarantee `hIH` for height `h`
(the outer induction hypothesis), the routed child call leaves the kids structure
well-formed — identical shape without promotion, or with the promoted separator
spliced in at its `upper_bound` position. -/
theorem kids_preserves (order f2 h : Nat) (m : Medium) (np key value : Nat)
    (hw : np + f2 < u32)
    (hIH : ∀ (page : Nat) (lo hi : Option Nat) (pgs : List Nat),
      NodeWF m.store h page lo hi pgs → (∀ x ∈ pgs, x < np) → okLo lo key →
      okHi key hi → RecOut order f2 m np page key value h lo hi pgs) :
    ∀ (hi lo : Option Nat) (ks cs pgsk : List Nat),
      KidsWFAux (NodeWF m.store h) hi lo ks cs pgsk → (∀ x ∈ pgsk, x < np) →
      okLo lo key → okHi key hi →
      KidsOut order f2 m np key value h hi lo ks cs pgsk := by
  intro hi lo ks
  induction ks generalizing lo with
  | nil =>
      intro cs pgsk hkids hb hlo hhi
      obtain ⟨c, rfl, hc⟩ := hkids
      have hout := hIH c lo hi pgsk hc hb hlo hhi
      unfold RecOut at hout
      unfold KidsOut
      have hch : ([c] : List Nat).getD (upperIdx ([] : List Nat) key) 0 = c := rfl
      rw [hch]
      obtain ⟨hframe, hmatch⟩ := hout
      refine ⟨hframe, ?_⟩
      cases hcp : (insertRec order f2 (m, np) c key value).2 with
      | none =>
          rw [hcp] at hmatch
          obtain ⟨pgs2, hnw, hg⟩ := hmatch
          exact ⟨pgs2, ⟨c, rfl, hnw⟩, hg⟩
      | some kpp =>
          rw [hcp] at hmatch
          obtain ⟨pgsL, pgsR, hL, hR, hlt, hokhi, hdisj, hg⟩ := hmatch
          exact ⟨pgsL ++ pgsR,
            ⟨c, [kpp.2], pgsL, pgsR, rfl, rfl, hlt, hokhi, hL, hdisj,
              ⟨kpp.2, rfl, hR⟩⟩, hlt, hokhi, fun x hx => hg x hx⟩
  | cons k0 ks2 ihk =>
      intro cs pgsk hkids hb hlo hhi
      obtain ⟨c, cs2, p1, p2, rfl, rfl, hlt, hhik, hc, hdisj, htail⟩ := hkids
      have hbp1 : ∀ x ∈ p1, x < np := fun x hx => hb x (by simp [hx])
      have hbp2 : ∀ x ∈ p2, x < np := fun x hx => hb x (by simp [hx])
      by_cases hkey : k0 ≤ key
      · -- routed into the tail
        have hu : upperIdx (k0 :: ks2) key = upperIdx ks2 key + 1 := by
          simp [upperIdx, List.takeWhile_cons, hkey, Nat.add_comm]
        have hch : ((c :: cs2).getD (upperIdx (k0 :: ks2) key) 0)
            = cs2.getD (upperIdx ks2 key) 0 := by
          rw [hu]
          simp
        have hKT := ihk (some k0) cs2 p2 htail hbp2 hkey hhi
        unfold KidsOut at hKT ⊢
        rw [hch]
        obtain ⟨hframe, hmatch⟩ := hKT
        have hnp := insertRec_np order f2 (m, np) (cs2.getD (upperIdx ks2 key) 0)
          key value hw
        have hagree : ∀ q ∈ p1,
            (insertRec order f2 (m, np) (cs2.getD (upperIdx ks2 key) 0) key
              value).1.1.store q = m.store q :=
          fun q hq => hframe q (fun hq2 => hdisj q hq hq2) (hbp1 q hq)
        have hNWc := NodeWF_frame m.store _ h c lo (some k0) p1 hc hagree
        refine ⟨fun q hq hq2 => hframe q (fun hq3 => hq (by simp [hq3])) hq2, ?_⟩
        cases hcp : (insertRec order f2 (m, np) (cs2.getD (upperIdx ks2 key) 0) key
            value).2 with
        | none =>
            rw [hcp] at hmatch
            obtain ⟨pgs2t, kidsT, growthT⟩ := hmatch
            have hdisj2 : ∀ x ∈ p1, x ∉ pgs2t := by
              intro x hx hx2
              rcases (growthT x hx2).1 with h2 | h2
              · exact hdisj x hx h2
              · have := hbp1 x hx
                omega
            refine ⟨p1 ++ pgs2t,
              ⟨c, cs2, p1, pgs2t, rfl, rfl, hlt, hhik, hNWc, hdisj2, kidsT⟩, ?_⟩
            intro x hx
            rcases List.mem_append.mp hx with h2 | h2
            · exact ⟨Or.inl (by simp [h2]), by have := hbp1 x h2; omega⟩
            · rcases (growthT x h2).1 with h3 | h3
              · exact ⟨Or.inl (by simp [h3]), (growthT x h2).2⟩
              · exact ⟨Or.inr h3, (growthT x h2).2⟩
        | some kpp =>
            rw [hcp] at hmatch
            obtain ⟨pgs2t, kidsT, hltk, hokk, growthT⟩ := hmatch
            have hk0 : k0 < kpp.1 := hltk
            have hu2 : upperIdx (k0 :: ks2) kpp.1 = upperIdx ks2 kpp.1 + 1 := by
              simp [upperIdx, List.takeWhile_cons, Nat.le_of_lt hk0, Nat.add_comm]
            simp only [hu2, List.insertIdx_succ_cons]
            have hdisj2 : ∀ x ∈ p1, x ∉ pgs2t := by
              intro x hx hx2
              rcases (growthT x hx2).1 with h2 | h2
              · exact hdisj x hx h2
              · have := hbp1 x hx
                omega
            refine ⟨p1 ++ pgs2t,
              ⟨c, cs2.insertIdx (upperIdx ks2 kpp.1 + 1) kpp.2, p1, pgs2t, rfl, rfl,
                hlt, hhik, hNWc, hdisj2, kidsT⟩,
              ltLo_of_ltLo_lt hlt hk0, hokk, ?_⟩
            intro x hx
            rcases List.mem_append.mp hx with h2 | h2
            · exact ⟨Or.inl (by simp [h2]), by have := hbp1 x h2; omega⟩
            · rcases (growthT x h2).1 with h3 | h3
              · exact ⟨Or.inl (by simp [h3]), (growthT x h2).2⟩
              · exact ⟨Or.inr h3, (growthT x h2).2⟩
      · -- routed into the head child
        have hkey2 : key < k0 := Nat.lt_of_not_le hkey
        have hch : ((c :: cs2).getD (upperIdx (k0 :: ks2) key) 0) = c := by
          have hu : upperIdx (k0 :: ks2) key = 0 := by
            simp [upperIdx, List.takeWhile_cons, hkey]
          rw [hu]
          rfl
        have hout := hIH c lo (some k0) p1 hc hbp1 hlo hkey2
        unfold RecOut at hout
        unfold KidsOut
        rw [hch]
        obtain ⟨hframe, hmatch⟩ := hout
        have hnp := insertRec_np order f2 (m, np) c key value hw
        have hagree : ∀ q ∈ p2,
            (insertRec order f2 (m, np) c key value).1.1.store q = m.store q :=
          fun q hq => hframe q (fun hq1 => hdisj q hq1 hq) (hbp2 q hq)
        have htail2 := KidsWF_frame m.store _ h hi (some k0) ks2 cs2 p2 htail hagree
        refine ⟨fun q hq hq2 => hframe q (fun hq3 => hq (by simp [hq3])) hq2, ?_⟩
        cases hcp : (insertRec order f2 (m, np) c key value).2 with
        | none =>
            rw [hcp] at hmatch
            obtain ⟨pgs2c, hNW2, growthc⟩ := hmatch
            have hdisj2 : ∀ x ∈ pgs2c, x ∉ p2 := by
              intro x hx hx2
              rcases (growthc x hx).1 with h2 | h2
              · exact hdisj x h2 hx2
              · have := hbp2 x hx2
                omega
            refine ⟨pgs2c ++ p2,
              ⟨c, cs2, pgs2c, p2, rfl, rfl, hlt, hhik, hNW2, hdisj2, htail2⟩, ?_⟩
            intro x hx
            rcases List.mem_append.mp hx with h2 | h2
            · rcases (growthc x h2).1 with h3 | h3
              · exact ⟨Or.inl (by simp [h3]), (growthc x h2).2⟩
              · exact ⟨Or.inr h3, (growthc x h2).2⟩
            · exact ⟨Or.inl (by simp [h2]), by have := hbp2 x h2; omega⟩
        | some kpp =>
            rw [hcp] at hmatch
            obtain ⟨pgsL, pgsR, hL, hR, hltk, hokk, hdisjLR, hg⟩ := hmatch
            have hk0 : kpp.1 < k0 := hokk
            have hu2 : upperIdx (k0 :: ks2) kpp.1 = 0 := by
              simp [upperIdx, List.takeWhile_cons, Nat.not_le_of_lt hk0]
            simp only [hu2, List.insertIdx_zero, List.insertIdx_succ_cons]
            have hgL : ∀ x ∈ pgsL, (x ∈ p1 ∨ np ≤ x) ∧
                x < (insertRec order f2 (m, np) c key value).1.2 :=
              fun x hx => hg x (by simp [hx])
            have hgR : ∀ x ∈ pgsR, (x ∈ p1 ∨ np ≤ x) ∧
                x < (insertRec order f2 (m, np) c key value).1.2 :=
              fun x hx => hg x (by simp [hx])
            have hdisjL2 : ∀ x ∈ pgsL, x ∉ p2 := by
              intro x hx hx2
              rcases (hgL x hx).1 with h2 | h2
              · exact hdisj x h2 hx2
              · have := hbp2 x hx2
                omega
            have hdisjR2 : ∀ x ∈ pgsR, x ∉ p2 := by
              intro x hx hx2
              rcases (hgR x hx).1 with h2 | h2
              · exact hdisj x h2 hx2
              · have := hbp2 x hx2
                omega
            refine ⟨pgsL ++ (pgsR ++ p2),
              ⟨c, kpp.2 :: cs2, pgsL, pgsR ++ p2, rfl, rfl, hltk,
                okHi_of_lt_okHi hk0 hhik, hL, ?_,
                ⟨kpp.2, cs2, pgsR, p2, rfl, rfl, hk0, hhik, hR, hdisjR2, htail2⟩⟩,
              hltk, okHi_of_lt_okHi hk0 hhik, ?_⟩
            · intro x hx
              intro hx2
              rcases List.mem_append.mp hx2 with h2 | h2
              · exact hdisjLR x hx h2
              · exact hdisjL2 x hx h2
            · intro x hx
              rcases List.mem_append.mp hx with h2 | h2
              · rcases (hgL x h2).1 with h3 | h3
                · exact ⟨Or.inl (by simp [h3]), (hgL x h2).2⟩
                · exact ⟨Or.inr h3, (hgL x h2).2⟩
              · rcases List.mem_append.mp h2 with h3 | h3
                · rcases (hgR x h3).1 with h4 | h4
                  · exact ⟨Or.inl (by simp [h4]), (hgR x h3).2⟩
                  · exact ⟨Or.inr h4, (hgR x h3).2⟩
                · exact ⟨Or.inl (by simp [h3]), by have := hbp2 x h3; omega⟩

theorem ltLo_of_okLo_lt {lo : Option Nat} {a b : Nat} (h1 : okLo lo a) (h2 : a < b) :
    ltLo lo b := by
  cases lo with
  | none => trivial
  | some l => exact Nat.lt_of_le_of_lt h1 h2

/-- `SplitLeaf` on a failure-free medium, written out as an explicit state. -/
theorem splitLeafAt_nofail (m : Medium) (np page : Nat) (ks : List Nat)
    (vs : List (List Nat)) (nx : Nat) (hfails : ∀ q, m.fails q = false) :
    splitLeafAt (m, np) page ks vs nx
      = ((⟨fun q =>
            if q = np then
              some (.leaf (ks.drop (ks.length / 2)) (vs.drop (ks.length / 2)) nx)
            else if q = page then
              some (.leaf (ks.take (ks.length / 2)) (vs.take (ks.length / 2)) np)
            else m.store q, m.fails⟩, (np + 1) % u32),
        some ((ks.drop (ks.length / 2)).headD 0, np)) := by
  unfold splitLeafAt allocatePage
  dsimp only
  rw [writePage_nofail m page _ (hfails page)]
  dsimp only
  have hm1 : ∀ q, (⟨fun q => if q = page then
      some (nodeToDisk (Node.leaf (ks.take (ks.length / 2)) (vs.take (ks.length / 2)) np))
      else m.store q, m.fails⟩ : Medium).fails q = false := hfails
  rw [writePage_nofail _ np _ (hm1 np)]
  rfl

/-- `SplitInternal` on a failure-free medium, written out as an explicit state.
Note both halves are persisted with `is_root_ = false` (the flag is not encoded). -/
theorem splitInternalAt_nofail (m : Medium) (np page : Nat) (ks cs : List Nat)
    (b : Bool) (hfails : ∀ q, m.fails q = false) :
    splitInternalAt (m, np) page ks cs b
      = ((⟨fun q =>
            if q = np then
              some (.internal (ks.drop (ks.length / 2 + 1)) (cs.drop (ks.length / 2 + 1))
                false)
            else if q = page then
              some (.internal (ks.take (ks.length / 2)) (cs.take (ks.length / 2 + 1))
                false)
            else m.store q, m.fails⟩, (np + 1) % u32),
        some (ks.getD (ks.length / 2) 0, np)) := by
  unfold splitInternalAt allocatePage
  dsimp only
  rw [writePage_nofail m page _ (hfails page)]
  dsimp only
  have hm1 : ∀ q, (⟨fun q => if q = page then
      some (nodeToDisk (Node.internal (ks.take (ks.length / 2))
        (cs.take (ks.length / 2 + 1)) b))
      else m.store q, m.fails⟩ : Medium).fails q = false := hfails
  rw [writePage_nofail _ np _ (hm1 np)]
  rfl

/-- Splitting a sorted list at `mid`: everything before is below the head of the
second half, everything after is at or above it. -/
theorem sorted_split_facts (l : List Nat) (mid : Nat) (hmid1 : 1 ≤ mid)
    (hmid2 : mid < l.length) (hs : List.Chain' (· < ·) l) :
    (∀ x ∈ l.take mid, x < (l.drop mid).headD 0) ∧
      (∀ y ∈ l.drop mid, (l.drop mid).headD 0 ≤ y) ∧
      (l.drop mid).headD 0 ∈ l ∧
      (∃ x0, x0 ∈ l.take mid ∧ x0 < (l.drop mid).headD 0) ∧
      List.Chain' (· < ·) (l.take mid) ∧ List.Chain' (· < ·) (l.drop mid) := by
  have hR : l.drop mid ≠ [] := by
    intro h
    have h2 : (l.drop mid).length = 0 := by rw [h]; rfl
    rw [List.length_drop] at h2
    omega
  obtain ⟨r0, Rt, hRdec⟩ : ∃ r0 Rt, l.drop mid = r0 :: Rt := by
    cases hdr : l.drop mid with
    | nil => exact absurd hdr hR
    | cons a t => exact ⟨a, t, rfl⟩
  have hp : List.Pairwise (· < ·) (l.take mid ++ l.drop mid) := by
    rw [List.take_append_drop]
    exact List.chain'_iff_pairwise.mp hs
  obtain ⟨hpL, hpR, hcross⟩ := List.pairwise_append.mp hp
  have hhead : (l.drop mid).headD 0 = r0 := by rw [hRdec]; rfl
  have hchainR : List.Chain' (· < ·) (l.drop mid) := List.chain'_iff_pairwise.mpr hpR
  have hTne : l.take mid ≠ [] := by
    intro h
    have h2 : (l.take mid).length = 0 := by rw [h]; rfl
    rw [List.length_take] at h2
    omega
  obtain ⟨x0, hx0⟩ := List.exists_mem_of_ne_nil _ hTne
  refine ⟨?_, ?_, ?_, ⟨x0, hx0, ?_⟩, List.chain'_iff_pairwise.mpr hpL, hchainR⟩
  · intro x hx
    rw [hhead]
    exact hcross x hx r0 (by rw [hRdec]; simp)
  · intro y hy
    rw [hhead]
    refine sorted_head_le r0 Rt ?_ y (by rw [← hRdec]; exact hy)
    rw [← hRdec]
    exact hchainR
  · exact List.drop_subset mid l (by rw [hRdec]; simp [hhead, hRdec])
  · rw [hhead]
    exact hcross x0 hx0 r0 (by rw [hRdec]; simp)

/-- Node-level preservation: one `InsertRecursive` call on a well-formed subtree
with `key` inside the subtree's window (and enough fuel, pages below the cursor,
no cursor wrap, failure-free medium) yields the `RecOut` guarantee. -/
theorem insertRec_preserves (order : Nat) (h3 : 3 ≤ order) :
    ∀ (h f : Nat) (m : Medium) (np page key value : Nat) (lo hi : Option Nat)
      (pgs : List Nat),
      NodeWF m.store h page lo hi pgs → h < f → (∀ x ∈ pgs, x < np) →
      np + f < u32 → (∀ q, m.fails q = false) → okLo lo key → okHi key hi →
      RecOut order f m np page key value h lo hi pgs := by
  intro h
  induction h with
  | zero =>
      intro f m np page key value lo hi pgs hwf hf hb hw hfails hlo hhi
      obtain ⟨f2, rfl⟩ : ∃ f2, f = f2 + 1 := ⟨f - 1, by omega⟩
      obtain ⟨ks, vs, nx, hst, hchain, hbnd, hlen, rfl⟩ := hwf
      have hpage : page < np := hb page (by simp)
      have hgen := leafInsert_general ks vs key value hlen hchain
      have hbnd2 : ∀ x ∈ (leafInsert ks vs key value).1, okLo lo x ∧ okHi x hi := by
        intro x hx
        rcases hgen.2.2.1 x hx with h2 | h2
        · exact hbnd x h2
        · subst h2; exact ⟨hlo, hhi⟩
      have hst2 : (m, np).1.store page = some (Node.leaf ks vs nx) := hst
      unfold RecOut
      by_cases hov : order - 1 < (leafInsert ks vs key value).1.length
      · -- the leaf splits
        have e1 : insertRec order (f2 + 1) (m, np) page key value
            = splitLeafAt (m, np) page (leafInsert ks vs key value).1
                (leafInsert ks vs key value).2 nx := by
          simp only [insertRec, hst, if_pos hov]
        rw [e1, splitLeafAt_nofail m np page _ _ nx hfails]
        dsimp only
        have hmod : (np + 1) % u32 = np + 1 := Nat.mod_eq_of_lt (by omega)
        simp only [hmod]
        have hkl : order ≤ (leafInsert ks vs key value).1.length := by omega
        have hmid1 : 1 ≤ (leafInsert ks vs key value).1.length / 2 := by omega
        have hmid2 : (leafInsert ks vs key value).1.length / 2
            < (leafInsert ks vs key value).1.length := by omega
        obtain ⟨hLlt, hRge, hsepmem, ⟨x0, hx0mem, hx0lt⟩, hchainL, hchainR⟩ :=
          sorted_split_facts (leafInsert ks vs key value).1
            ((leafInsert ks vs key value).1.length / 2) hmid1 hmid2 hgen.1
        have hpne : page ≠ np := by omega
        refine ⟨?_, ?_⟩
        · intro q hq hq2
          have hqp : q ≠ page := by simp at hq; exact hq
          have hqn : q ≠ np := by omega
          simp [hqp, hqn]
        · refine ⟨[page], [np], ?_, ?_, ?_, ?_, ?_, ?_⟩
          · refine ⟨(leafInsert ks vs key value).1.take
                ((leafInsert ks vs key value).1.length / 2),
              (leafInsert ks vs key value).2.take
                ((leafInsert ks vs key value).1.length / 2), np, ?_, hchainL, ?_, ?_, rfl⟩
            · simp [hpne]
            · intro x hx
              exact ⟨(hbnd2 x (List.take_subset _ _ hx)).1, hLlt x hx⟩
            · simp [List.length_take, hgen.2.1]
          · refine ⟨(leafInsert ks vs key value).1.drop
                ((leafInsert ks vs key value).1.length / 2),
              (leafInsert ks vs key value).2.drop
                ((leafInsert ks vs key value).1.length / 2), nx, ?_, hchainR, ?_, ?_, rfl⟩
            · simp
            · intro y hy
              exact ⟨hRge y hy, (hbnd2 y (List.drop_subset _ _ hy)).2⟩
            · simp [List.length_drop, hgen.2.1]
          · exact ltLo_of_okLo_lt (hbnd2 x0 (List.take_subset _ _ hx0mem)).1 hx0lt
          · exact (hbnd2 _ hsepmem).2
          · intro x hx
            simp at hx
            subst hx
            simp [hpne]
          · intro x hx
            simp at hx
            rcases hx with rfl | rfl
            · exact ⟨Or.inl (by simp), by omega⟩
            · exact ⟨Or.inr (by omega), by omega⟩
      · -- no split: write the leaf back in place
        have e1 : insertRec order (f2 + 1) (m, np) page key value
            = ((⟨fun q => if q = page then
                some (Node.leaf (leafInsert ks vs key value).1
                  (leafInsert ks vs key value).2 nx)
                else m.store q, m.fails⟩, np), none) := by
          simp only [insertRec, hst, if_neg hov]
          rw [writePage_nofail m page _ (hfails page)]
          rfl
        rw [e1]
        dsimp only
        refine ⟨?_, ?_⟩
        · intro q hq hq2
          have hqp : q ≠ page := by simp at hq; exact hq
          simp [hqp]
        · refine ⟨[page], ⟨(leafInsert ks vs key value).1,
            (leafInsert ks vs key value).2, nx, by simp, hgen.1, hbnd2, hgen.2.1, rfl⟩, ?_⟩
          intro x hx
          simp at hx
          subst hx
          exact ⟨Or.inl (by simp), hpage⟩
  | succ h ih =>
      intro f m np page key value lo hi pgs hwf hf hb hw hfails hlo hhi
      obtain ⟨f2, rfl⟩ : ∃ f2, f = f2 + 1 := ⟨f - 1, by omega⟩
      have hhf2 : h < f2 := by omega
      obtain ⟨ks, cs, b, pgsk, hst, hpg, rfl, hkids⟩ := hwf
      have hpage : page < np := hb page (by simp)
      have hIH2 : ∀ (page : Nat) (lo hi : Option Nat) (pgs : List Nat),
          NodeWF m.store h page lo hi pgs → (∀ x ∈ pgs, x < np) → okLo lo key →
          okHi key hi → RecOut order f2 m np page key value h lo hi pgs :=
        fun page lo hi pgs hwf2 hb2 hl2 hh2 =>
          ih f2 m np page key value lo hi pgs hwf2 hhf2 hb2 (by omega) hfails hl2 hh2
      have hK := kids_preserves order f2 h m np key value (by omega) hIH2 hi lo ks cs
        pgsk hkids (fun x hx => hb x (by simp [hx])) hlo hhi
      unfold KidsOut at hK
      obtain ⟨hKframe, hKmatch⟩ := hK
      have hnp := insertRec_np order f2 (m, np) (cs.getD (upperIdx ks key) 0) key value
        (by omega)
      have hst2 : (m, np).1.store page = some (Node.internal ks cs b) := hst
      have hfailsR : ∀ q,
          (insertRec order f2 (m, np) (cs.getD (upperIdx ks key) 0) key
            value).1.1.fails q = false := by
        intro q
        rw [insertRec_fails]
        exact hfails q
      unfold RecOut
      cases hcp : (insertRec order f2 (m, np) (cs.getD (upperIdx ks key) 0) key
          value).2 with
      | none =>
          rw [hcp] at hKmatch
          obtain ⟨pgs2, kids2, growth2⟩ := hKmatch
          have e1 : insertRec order (f2 + 1) (m, np) page key value
              = ((insertRec order f2 (m, np) (cs.getD (upperIdx ks key) 0) key
                  value).1, none) := by
            simp only [insertRec, hst]
            rw [hcp]
          rw [e1]
          dsimp only
          have hpgs2 : page ∉ pgs2 := by
            intro hxx
            rcases (growth2 page hxx).1 with h2 | h2
            · exact hpg h2
            · omega
          refine ⟨?_, ?_⟩
          · intro q hq hq2
            exact hKframe q (fun hq3 => hq (by simp [hq3])) hq2
          · refine ⟨page :: pgs2, ⟨ks, cs, b, pgs2, ?_, hpgs2, rfl, kids2⟩, ?_⟩
            · rw [hKframe page hpg hpage]
              exact hst
            · intro x hx
              rcases List.mem_cons.mp hx with rfl | hx2
              · exact ⟨Or.inl (by simp), by omega⟩
              · rcases (growth2 x hx2).1 with h2 | h2
                · exact ⟨Or.inl (by simp [h2]), (growth2 x hx2).2⟩
                · exact ⟨Or.inr h2, (growth2 x hx2).2⟩
      | some kpp =>
          obtain ⟨kp1, pp1⟩ := kpp
          rw [hcp] at hKmatch
          dsimp only at hKmatch
          obtain ⟨pgs2, kids2, hltk, hokk, growth2⟩ := hKmatch
          have hpgs2 : page ∉ pgs2 := by
            intro hxx
            rcases (growth2 page hxx).1 with h2 | h2
            · exact hpg h2
            · omega
          have hpgs2b : ∀ x ∈ pgs2,
              x < (insertRec order f2 (m, np) (cs.getD (upperIdx ks key) 0) key
                value).1.2 := fun x hx => (growth2 x hx).2
          by_cases hov : order
              < (cs.insertIdx (upperIdx ks kp1 + 1) pp1).length
          · -- the internal node splits
            have e1 : insertRec order (f2 + 1) (m, np) page key value
                = splitInternalAt
                    (insertRec order f2 (m, np) (cs.getD (upperIdx ks key) 0) key
                      value).1 page
                    (ks.insertIdx (upperIdx ks kp1) kp1)
                    (cs.insertIdx (upperIdx ks kp1 + 1) pp1) b := by
              simp only [insertRec, hst]
              rw [hcp]
              simp only [if_pos hov]
            have hRpair : (insertRec order f2 (m, np) (cs.getD (upperIdx ks key) 0)
                key value).1
                = ((insertRec order f2 (m, np) (cs.getD (upperIdx ks key) 0) key
                    value).1.1,
                  (insertRec order f2 (m, np) (cs.getD (upperIdx ks key) 0) key
                    value).1.2) := rfl
            rw [e1, hRpair, splitInternalAt_nofail _ _ page _ _ b hfailsR]
            dsimp only
            have hmod : ((insertRec order f2 (m, np) (cs.getD (upperIdx ks key) 0)
                key value).1.2 + 1) % u32
                = (insertRec order f2 (m, np) (cs.getD (upperIdx ks key) 0) key
                    value).1.2 + 1 := Nat.mod_eq_of_lt (by omega)
            simp only [hmod]
            obtain ⟨hchain2, hband2, hcslen⟩ :=
              KidsWFAux_sep_sorted _ hi lo _ _ pgs2 kids2
            have hkslen : order ≤ (ks.insertIdx (upperIdx ks kp1) kp1).length := by
              omega
            have hmid1 : 1 ≤ (ks.insertIdx (upperIdx ks kp1) kp1).length / 2 := by
              omega
            have hmid2 : (ks.insertIdx (upperIdx ks kp1) kp1).length / 2
                < (ks.insertIdx (upperIdx ks kp1) kp1).length := by omega
            obtain ⟨p1, p2, rfl, hleftk, hrightk, hltmid, hhimid, hdisj12⟩ :=
              KidsWFAux_split _ ((ks.insertIdx (upperIdx ks kp1) kp1).length / 2)
                hi lo _ _ _ hmid2 kids2
            have hp1b : ∀ x ∈ p1, x < (insertRec order f2 (m, np)
                (cs.getD (upperIdx ks key) 0) key value).1.2 :=
              fun x hx => hpgs2b x (by simp [hx])
            have hp2b : ∀ x ∈ p2, x < (insertRec order f2 (m, np)
                (cs.getD (upperIdx ks key) 0) key value).1.2 :=
              fun x hx => hpgs2b x (by simp [hx])
            have hpnew : page
                ≠ (insertRec order f2 (m, np) (cs.getD (upperIdx ks key) 0) key
                    value).1.2 := by omega
            have hagrL : ∀ q ∈ p1, (fun q2 =>
                if q2 = (insertRec order f2 (m, np) (cs.getD (upperIdx ks key) 0)
                    key value).1.2 then
                  some (Node.internal
                    ((ks.insertIdx (upperIdx ks kp1) kp1).drop
                      ((ks.insertIdx (upperIdx ks kp1) kp1).length / 2 + 1))
                    ((cs.insertIdx (upperIdx ks kp1 + 1) pp1).drop
                      ((ks.insertIdx (upperIdx ks kp1) kp1).length / 2 + 1)) false)
                else if q2 = page then
                  some (Node.internal
                    ((ks.insertIdx (upperIdx ks kp1) kp1).take
                      ((ks.insertIdx (upperIdx ks kp1) kp1).length / 2))
                    ((cs.insertIdx (upperIdx ks kp1 + 1) pp1).take
                      ((ks.insertIdx (upperIdx ks kp1) kp1).length / 2 + 1)) false)
                else (insertRec order f2 (m, np) (cs.getD (upperIdx ks key) 0) key
                  value).1.1.store q2) q
                = (insertRec order f2 (m, np) (cs.getD (upperIdx ks key) 0) key
                    value).1.1.store q := by
              intro q hq
              have h1 : q ≠ (insertRec order f2 (m, np) (cs.getD (upperIdx ks key) 0)
                  key value).1.2 := by
                have := hp1b q hq
                omega
              have h2 : q ≠ page := fun he => hpgs2 (he ▸ (by simp [hq]))
              dsimp only
              rw [if_neg h1, if_neg h2]
            have hagrR : ∀ q ∈ p2, (fun q2 =>
                if q2 = (insertRec order f2 (m, np) (cs.getD (upperIdx ks key) 0)
                    key value).1.2 then
                  some (Node.internal
                    ((ks.insertIdx (upperIdx ks kp1) kp1).drop
                      ((ks.insertIdx (upperIdx ks kp1) kp1).length / 2 + 1))
                    ((cs.insertIdx (upperIdx ks kp1 + 1) pp1).drop
                      ((ks.insertIdx (upperIdx ks kp1) kp1).length / 2 + 1)) false)
                else if q2 = page then
                  some (Node.internal
                    ((ks.insertIdx (upperIdx ks kp1) kp1).take
                      ((ks.insertIdx (upperIdx ks kp1) kp1).length / 2))
                    ((cs.insertIdx (upperIdx ks kp1 + 1) pp1).take
                      ((ks.insertIdx (upperIdx ks kp1) kp1).length / 2 + 1)) false)
                else (insertRec order f2 (m, np) (cs.getD (upperIdx ks key) 0) key
                  value).1.1.store q2) q
                = (insertRec order f2 (m, np) (cs.getD (upperIdx ks key) 0) key
                    value).1.1.store q := by
              intro q hq
              have h1 : q ≠ (insertRec order f2 (m, np) (cs.getD (upperIdx ks key) 0)
                  key value).1.2 := by
                have := hp2b q hq
                omega
              have h2 : q ≠ page := fun he => hpgs2 (he ▸ (by simp [hq]))
              dsimp only
              rw [if_neg h1, if_neg h2]
            refine ⟨?_, ?_⟩
            · intro q hq hq2
              have hqp : q ≠ page := by
                intro he
                exact hq (by simp [he])
              have hqn : q ≠ (insertRec order f2 (m, np) (cs.getD (upperIdx ks key) 0)
                  key value).1.2 := by omega
              rw [if_neg hqn, if_neg hqp]
              exact hKframe q (fun hq3 => hq (by simp [hq3])) hq2
            · refine ⟨page :: p1,
                (insertRec order f2 (m, np) (cs.getD (upperIdx ks key) 0) key
                  value).1.2 :: p2, ?_, ?_, hltmid, hhimid, ?_, ?_⟩
              · refine ⟨_, _, false, p1, by dsimp only; rw [if_neg hpnew, if_pos rfl], ?_, rfl,
                  KidsWF_frame _ _ h _ lo _ _ p1 hleftk hagrL⟩
                intro hxx
                exact hpgs2 (by simp [hxx])
              · refine ⟨_, _, false, p2, by dsimp only; rw [if_pos rfl], ?_, rfl,
                  KidsWF_frame _ _ h hi _ _ _ p2 hrightk hagrR⟩
                intro hxx
                have := hp2b _ hxx
                omega
              · intro x hx
                rcases List.mem_cons.mp hx with rfl | hx2
                · intro hx3
                  rcases List.mem_cons.mp hx3 with h4 | h4
                  · exact hpnew h4
                  · exact hpgs2 (by simp [h4])
                · intro hx3
                  rcases List.mem_cons.mp hx3 with h4 | h4
                  · have := hp1b x hx2
                    omega
                  · exact hdisj12 x hx2 h4
              · intro x hx
                rcases List.mem_append.mp hx with h2 | h2
                · rcases List.mem_cons.mp h2 with rfl | h3
                  · exact ⟨Or.inl (by simp), by omega⟩
                  · rcases (growth2 x (by simp [h3])).1 with h4 | h4
                    · exact ⟨Or.inl (by simp [h4]), by have := hp1b x h3; omega⟩
                    · exact ⟨Or.inr h4, by have := hp1b x h3; omega⟩
                · rcases List.mem_cons.mp h2 with rfl | h3
                  · exact ⟨Or.inr (by omega), by omega⟩
                  · rcases (growth2 x (by simp [h3])).1 with h4 | h4
                    · exact ⟨Or.inl (by simp [h4]), by have := hp2b x h3; omega⟩
                    · exact ⟨Or.inr h4, by have := hp2b x h3; omega⟩
          · -- the promoted separator is absorbed in place
            have e1 : insertRec order (f2 + 1) (m, np) page key value
                = ((⟨fun q => if q = page then
                    some (Node.internal (ks.insertIdx (upperIdx ks kp1) kp1)
                      (cs.insertIdx (upperIdx ks kp1 + 1) pp1) false)
                    else (insertRec order f2 (m, np) (cs.getD (upperIdx ks key) 0)
                      key value).1.1.store q,
                    (insertRec order f2 (m, np) (cs.getD (upperIdx ks key) 0) key
                      value).1.1.fails⟩,
                  (insertRec order f2 (m, np) (cs.getD (upperIdx ks key) 0) key
                    value).1.2), none) := by
              simp only [insertRec, hst]
              rw [hcp]
              simp only [if_neg hov]
              rw [writePage_nofail _ page _ (hfailsR page)]
              rfl
            rw [e1]
            dsimp only
            have hagr : ∀ q ∈ pgs2, (fun q2 => if q2 = page then
                some (Node.internal (ks.insertIdx (upperIdx ks kp1) kp1)
                  (cs.insertIdx (upperIdx ks kp1 + 1) pp1) false)
                else (insertRec order f2 (m, np) (cs.getD (upperIdx ks key) 0)
                  key value).1.1.store q2) q
                = (insertRec order f2 (m, np) (cs.getD (upperIdx ks key) 0) key
                    value).1.1.store q := by
              intro q hq
              have h2 : q ≠ page := fun he => hpgs2 (he ▸ hq)
              dsimp only
              rw [if_neg h2]
            refine ⟨?_, ?_⟩
            · intro q hq hq2
              have hqp : q ≠ page := by
                intro he
                exact hq (by simp [he])
              rw [if_neg hqp]
              exact hKframe q (fun hq3 => hq (by simp [hq3])) hq2
            · refine ⟨page :: pgs2,
                ⟨_, _, false, pgs2, by dsimp only; rw [if_pos rfl], hpgs2, rfl,
                  KidsWF_frame _ _ h hi lo _ _ pgs2 kids2 hagr⟩, ?_⟩
              intro x hx
              rcases List.mem_cons.mp hx with rfl | hx2
              · exact ⟨Or.inl (by simp), by omega⟩
              · rcases (growth2 x hx2).1 with h2 | h2
                · exact ⟨Or.inl (by simp [h2]), (growth2 x hx2).2⟩
                · exact ⟨Or.inr h2, (growth2 x hx2).2⟩

/-- Every child of a well-formed kids structure is a well-formed subtree under
some window. -/
theorem kids_mem (NW : Nat → Option Nat → Option Nat → List Nat → Prop) :
    ∀ (hi lo : Option Nat) (ks cs pgs : List Nat),
      KidsWFAux NW hi lo ks cs pgs → ∀ c ∈ cs, ∃ lo2 hi2 pp, NW c lo2 hi2 pp := by
  intro hi lo ks
  induction ks generalizing lo with
  | nil =>
      intro cs pgs hkids c hc
      obtain ⟨c2, rfl, h2⟩ := hkids
      rcases List.mem_singleton.mp hc with rfl
      exact ⟨lo, hi, pgs, h2⟩
  | cons k ks ihk =>
      intro cs pgs hkids c hc
      obtain ⟨c2, cs2, p1, p2, rfl, rfl, hlt, hhik, hc2, hdisj, htail⟩ := hkids
      rcases List.mem_cons.mp hc with rfl | h2
      · exact ⟨lo, some k, p1, hc2⟩
      · exact ihk (some k) cs2 p2 htail c h2

/-- With fuel at most the height, `InsertRecursive` runs out of fuel strictly
before reaching a leaf, so the call is a no-op: no write happens and no key is
promoted. -/
theorem insertRec_noop (order : Nat) :
    ∀ (f h : Nat) (m : Medium) (np page key value : Nat) (lo hi : Option Nat)
      (pgs : List Nat),
      NodeWF m.store h page lo hi pgs → f ≤ h →
      insertRec order f (m, np) page key value = ((m, np), none) := by
  intro f
  induction f with
  | zero => intro h m np page key value lo hi pgs hwf hf; rfl
  | succ f ih =>
      intro h m np page key value lo hi pgs hwf hf
      obtain ⟨h2, rfl⟩ : ∃ h2, h = h2 + 1 := ⟨h - 1, by omega⟩
      obtain ⟨ks, cs, b, pgsk, hst, hpg, rfl, hkids⟩ := hwf
      have hlen : cs.length = ks.length + 1 :=
        (KidsWFAux_sep_sorted _ hi lo ks cs pgsk hkids).2.2
      have hub : upperIdx ks key < cs.length := by
        have h0 : (ks.takeWhile (fun x => decide (x ≤ key))).length ≤ ks.length :=
          List.Sublist.length_le (List.takeWhile_sublist _)
        simp only [upperIdx]
        omega
      have hmem : cs.getD (upperIdx ks key) 0 ∈ cs := by
        rw [List.getD_eq_getElem cs 0 hub]
        exact List.getElem_mem hub
      obtain ⟨lo2, hi2, pp, hwf2⟩ := kids_mem _ hi lo ks cs pgsk hkids _ hmem
      have hrec := ih h2 m np (cs.getD (upperIdx ks key) 0) key value lo2 hi2 pp hwf2
        (by omega)
      simp only [insertRec, hst, hrec]

/-- Tree-level preservation: one `Insert` call keeps the whole-tree invariant,
provided the 32-bit allocation cursor cannot wrap during this call (a call
allocates at most `fuel + 1` pages); the cursor moves forward by at most
`fuel + 1`. -/
theorem insert_WF (fuel : Nat) (s : TreeState) (key value : Nat)
    (hwf : TreeWF s) (hw : s.nextPage + fuel + 1 < u32) :
    TreeWF (insert fuel s key value).1 ∧
    s.nextPage ≤ (insert fuel s key value).1.nextPage ∧
    (insert fuel s key value).1.nextPage ≤ s.nextPage + fuel + 1 := by
  obtain ⟨h3, hfails, hroot⟩ := hwf
  by_cases hr0 : s.rootPage = 0
  · have hmod : (s.nextPage + 1) % u32 = s.nextPage + 1 := Nat.mod_eq_of_lt (by omega)
    have e1 : insert fuel s key value
        = ({ s with
            medium := ⟨fun q => if q = s.nextPage
                then some (nodeToDisk (.leaf [key] [[value]] 0))
                else s.medium.store q,
              s.medium.fails⟩,
            rootPage := s.nextPage, nextPage := s.nextPage + 1 }, true) := by
      simp only [insert, if_pos hr0, allocatePage, hmod,
        writePage_nofail s.medium s.nextPage (Node.leaf [key] [[value]] 0)
          (hfails s.nextPage)]
    rw [e1]
    refine ⟨⟨h3, hfails, Or.inr ⟨0, [s.nextPage], ?_, ?_⟩⟩, by dsimp only; omega,
      by dsimp only; omega⟩
    · exact ⟨[key], [[value]], 0, by simp [nodeToDisk], by simp,
        by simp [okLo, okHi], rfl, rfl⟩
    · intro x hx
      rcases List.mem_singleton.mp hx with rfl
      dsimp only
      omega
  · rcases hroot with h0 | ⟨h, pgs, hnwf, hbpgs⟩
    · exact absurd h0 hr0
    by_cases hfuel : h < fuel
    · have hro := insertRec_preserves s.order h3 h fuel s.medium s.nextPage s.rootPage
        key value none none pgs hnwf hfuel hbpgs (by omega) hfails trivial trivial
      unfold RecOut at hro
      obtain ⟨hframe, hout⟩ := hro
      have hnp := insertRec_np s.order fuel (s.medium, s.nextPage) s.rootPage key value
        (by dsimp only; omega)
      dsimp only at hnp
      have hfl := insertRec_fails s.order fuel (s.medium, s.nextPage) s.rootPage
        key value
      dsimp only at hfl
      cases hres : (insertRec s.order fuel (s.medium, s.nextPage) s.rootPage key
          value).2 with
      | none =>
          simp only [hres] at hout
          obtain ⟨pgs2, hnwf2, hb2⟩ := hout
          have e2 : insert fuel s key value
              = ({ s with
                  medium := (insertRec s.order fuel (s.medium, s.nextPage) s.rootPage
                    key value).1.1,
                  nextPage := (insertRec s.order fuel (s.medium, s.nextPage) s.rootPage
                    key value).1.2 }, true) := by
            simp only [insert, if_neg hr0, hres]
          rw [e2]
          refine ⟨⟨h3, ?_, Or.inr ⟨h, pgs2, hnwf2, ?_⟩⟩, by dsimp only; omega,
            by dsimp only; omega⟩
          · intro q
            dsimp only
            rw [hfl]
            exact hfails q
          · intro x hx
            exact (hb2 x hx).2
      | some kpp =>
          obtain ⟨kp1, pp1⟩ := kpp
          simp only [hres] at hout
          obtain ⟨pgsL, pgsR, hnwfL, hnwfR, hltk, hhik, hdisj, hb2⟩ := hout
          have hmod2 : ((insertRec s.order fuel (s.medium, s.nextPage) s.rootPage key
              value).1.2 + 1) % u32
              = (insertRec s.order fuel (s.medium, s.nextPage) s.rootPage key
                value).1.2 + 1 :=
            Nat.mod_eq_of_lt (by omega)
          have hfl2 : (insertRec s.order fuel (s.medium, s.nextPage) s.rootPage key
              value).1.1.fails
              ((insertRec s.order fuel (s.medium, s.nextPage) s.rootPage key
                value).1.2) = false := by
            rw [hfl]
            exact hfails _
          have e2 : insert fuel s key value
              = ({ s with
                  medium := ⟨fun q => if q = (insertRec s.order fuel
                        (s.medium, s.nextPage) s.rootPage key value).1.2
                      then some (nodeToDisk (.internal [kp1] [s.rootPage, pp1] true))
                      else (insertRec s.order fuel (s.medium, s.nextPage) s.rootPage
                        key value).1.1.store q,
                    (insertRec s.order fuel (s.medium, s.nextPage) s.rootPage key
                      value).1.1.fails⟩,
                  rootPage := (insertRec s.order fuel (s.medium, s.nextPage) s.rootPage
                    key value).1.2,
                  nextPage := (insertRec s.order fuel (s.medium, s.nextPage) s.rootPage
                    key value).1.2 + 1 }, true) := by
            simp only [insert, if_neg hr0, hres, allocatePage, hmod2,
              writePage_nofail _ _ _ hfl2]
          rw [e2]
          have hbelow : ∀ x ∈ pgsL ++ pgsR,
              x < (insertRec s.order fuel (s.medium, s.nextPage) s.rootPage key
                value).1.2 := fun x hx => (hb2 x hx).2
          have hagr : ∀ q ∈ pgsL ++ pgsR,
              (fun q2 => if q2 = (insertRec s.order fuel (s.medium, s.nextPage)
                    s.rootPage key value).1.2
                  then some (nodeToDisk (.internal [kp1] [s.rootPage, pp1] true))
                  else (insertRec s.order fuel (s.medium, s.nextPage) s.rootPage
                    key value).1.1.store q2) q
                = (insertRec s.order fuel (s.medium, s.nextPage) s.rootPage key
                    value).1.1.store q := by
            intro q hq
            have h1 : q ≠ (insertRec s.order fuel (s.medium, s.nextPage) s.rootPage
                key value).1.2 := by
              have := hbelow q hq
              omega
            dsimp only
            rw [if_neg h1]
          refine ⟨⟨h3, ?_, Or.inr ⟨h + 1,
            (insertRec s.order fuel (s.medium, s.nextPage) s.rootPage key
              value).1.2 :: (pgsL ++ pgsR), ?_, ?_⟩⟩,
            ?_, ?_⟩
          · intro q
            dsimp only
            rw [hfl]
            exact hfails q
          · refine ⟨[kp1], [s.rootPage, pp1], false, pgsL ++ pgsR,
              by dsimp only; rw [if_pos rfl]; rfl, ?_, rfl, ?_⟩
            · show (insertRec s.order fuel (s.medium, s.nextPage) s.rootPage key
                value).1.2 ∉ pgsL ++ pgsR
              intro hx
              have := hbelow _ hx
              omega
            · refine ⟨s.rootPage, [pp1], pgsL, pgsR, rfl, rfl, hltk, hhik, ?_, hdisj,
                pp1, rfl, ?_⟩
              · exact NodeWF_frame _ _ h s.rootPage none (some kp1) pgsL hnwfL
                  (fun q hq => hagr q (List.mem_append.mpr (Or.inl hq)))
              · exact NodeWF_frame _ _ h pp1 (some kp1) none pgsR hnwfR
                  (fun q hq => hagr q (List.mem_append.mpr (Or.inr hq)))
          · intro x hx
            dsimp only
            rcases List.mem_cons.mp hx with rfl | hx2
            · omega
            · have := hbelow x hx2
              omega
          · show s.nextPage ≤ (insertRec s.order fuel (s.medium, s.nextPage)
              s.rootPage key value).1.2 + 1
            omega
          · show (insertRec s.order fuel (s.medium, s.nextPage) s.rootPage key
              value).1.2 + 1 ≤ s.nextPage + fuel + 1
            omega
    · have hrec := insertRec_noop s.order fuel h s.medium s.nextPage s.rootPage key
        value none none pgs hnwf (by omega)
      have e2 : insert fuel s key value
          = ({ s with medium := s.medium, nextPage := s.nextPage }, true) := by
        simp only [insert, if_neg hr0, hrec]
      rw [e2]
      exact ⟨⟨h3, hfails, Or.inr ⟨h, pgs, hnwf, hbpgs⟩⟩, by dsimp only; omega,
        by dsimp only; omega⟩

/-- Whole-run preservation: a sequence of `Insert` calls keeps the invariant as
long as the 32-bit allocation cursor cannot wrap during the run (each call
allocates at most `fuel + 1` pages). -/
theorem insertList_WF (fuel : Nat) :
    ∀ (ps : List (Nat × Nat)) (s : TreeState), TreeWF s →
      s.nextPage + ps.length * (fuel + 1) + 1 < u32 →
      TreeWF (insertList fuel s ps) ∧
      (insertList fuel s ps).nextPage ≤ s.nextPage + ps.length * (fuel + 1) := by
  intro ps
  induction ps with
  | nil =>
      intro s hwf hw
      exact ⟨hwf, Nat.le_add_right _ _⟩
  | cons q ps ih =>
      intro s hwf hw
      rw [insertList_cons]
      simp only [List.length_cons] at hw ⊢
      have hmul : (ps.length + 1) * (fuel + 1) = ps.length * (fuel + 1) + (fuel + 1) :=
        Nat.succ_mul _ _
      have h1 := insert_WF fuel s q.1 q.2 hwf (by omega)
      have h2 := ih (insert fuel s q.1 q.2).1 h1.1 (by omega)
      refine ⟨h2.1, ?_⟩
      have := h1.2.2
      have := h2.2
      omega

/-- C4: the sorted/range invariant, on the domain where the source actually
maintains it.  After every finite sequence of `Insert` calls on a fresh tree
with **pairwise distinct keys**, order at most 341, and total page allocation
below the 32-bit cursor bound (each call allocates at most `fuel + 1` pages, so
`1 + n*(fuel+1) + 1 < 2^32` suffices for `n` calls), the resulting tree
satisfies `TreeWF`: every reachable leaf's `keys_` is strictly increasing, and
every reachable internal node's separators are strictly increasing with every
key under `children_[i]` strictly below `keys_[i]` and every key under
`children_[i+1]` at least `keys_[i]`.

The side conditions delimit the regime where the node-level medium is an exact
model of the disk and describe real failure modes of the program outside it:
with distinct keys every value row is a singleton, so each persisted leaf
(`≤ order − 1 ≤ 340` keys) needs at most `9 + 12·340 = 4089 ≤ 4096` bytes and
each internal node (`≤ order − 1` separators) at most `5 + 8·340 + 4 = 2729`,
i.e. every write fits its 4096-byte page — whereas duplicate-key runs grow a
value vector without bound and `SerializeLeaf`, which has **no** capacity check
(see `serialize_overflow_unchecked`), then truncates the page and corrupts the
later records; and without the cursor bound `AllocatePage`'s `uint32_t` cursor
wraps (see `allocator_wraps_cex`), freshly allocated pages collide with live
ones and splits overwrite reachable nodes. -/
theorem sorted_invariant (order fuel : Nat) (ps : List (Nat × Nat))
    (h3 : 3 ≤ order) (h341 : order ≤ 341) (hndk : (ps.map Prod.fst).Nodup)
    (hw : 1 + ps.length * (fuel + 1) + 1 < u32) :
    TreeWF (insertList fuel (emptyState order) ps) :=
  (insertList_WF fuel ps (emptyState order) ⟨h3, fun _ => rfl, Or.inl rfl⟩ hw).1

/-- Witness for `sorted_invariant`: a concrete three-row run at order 3. -/
theorem sorted_invariant_witness :
    3 ≤ 3 ∧ (3:Nat) ≤ 341 ∧
      (([(5, 7), (3, 4), (9, 1)] : List (Nat × Nat)).map Prod.fst).Nodup ∧
      1 + [(5, 7), (3, 4), (9, 1)].length * (2 + 1) + 1 < u32 ∧
      TreeWF (insertList 2 (emptyState 3) [(5, 7), (3, 4), (9, 1)]) :=
  ⟨by decide, by decide, by decide, by decide,
    sorted_invariant 3 2 [(5, 7), (3, 4), (9, 1)] (by decide) (by decide) (by decide)
      (by decide)⟩

end BPlusTree
